import Mathlib

/-!
Verification development for `fast_video_converter.py`: a shallow embedding of
the scan-plan-execute-resume pipeline (the `VideoConverter` class) and proofs
about its scanner classification policy, executor success/failure handling,
state-store persistence discipline, probe contract and key normalization.

Modelling conventions:
* A filesystem path is a pair of a directory string and a file-name string
  (`MPath`); a regular file (`MFile`) stores the Python `Path.stem` /
  `Path.suffix` split of its name, the resolution its probe would report
  (`none` models a probe failure), and its size in bytes.
* The persisted JSON state map is an association list updated in place
  (`setS` / `getS`), mirroring a Python dict keyed by `str(path).lower()`.
* External subprocesses are injected outcomes: `EncRun` is one ffmpeg
  invocation's observable result, `ProbeOut` one ffprobe invocation's.
* Side effects are recorded as an event trace (`Ev`): state-map mutations,
  state saves, unlinks and renames, in program order.
-/

namespace FVC

/-- The three status strings the program writes into `conversion_state.json`. -/
inductive St
  | converted
  | skipped
  | failed
deriving DecidableEq, Repr

/-- A filesystem path, split as directory plus file name (models `pathlib.Path`;
names never contain the separator, so the pair determines `str(path)`). -/
structure MPath where
  dir : String
  name : String
deriving DecidableEq, Repr

/-- A regular file: Python's `Path.stem` / `Path.suffix` split of its name,
the resolution `ffprobe` reports for it (`none` = probe failure), and its
size in bytes (`stat().st_size`). -/
structure MFile where
  dir : String
  stem : String
  ext : String
  res : Option (Nat × Nat)
  size : Nat
deriving DecidableEq, Repr

/-- `str.lower()` on the ASCII paths the program handles. -/
def lowerStr (s : String) : String := ⟨s.data.map Char.toLower⟩

/-- `str(file_path)` as a dir/name pair. -/
def pth (f : MFile) : MPath := ⟨f.dir, f.stem ++ f.ext⟩

/-- `file_path.name`. -/
def fname (f : MFile) : String := f.stem ++ f.ext

/-- `str(path).lower()`: the state-map key for a path (line 116 / 167). -/
def skeyP (p : MPath) : MPath := ⟨lowerStr p.dir, lowerStr p.name⟩

/-- The state-map key of a file. -/
def skey (f : MFile) : MPath := skeyP (pth f)

/-- `name.startswith('temp_')` (line 112): the first five characters. -/
def isTempName (n : String) : Bool := decide (n.data.take 5 = "temp_".data)

/-- `TARGET_WIDTH` (line 18). -/
def TARGET_WIDTH : Nat := 176

/-- `TARGET_HEIGHT` (line 19). -/
def TARGET_HEIGHT : Nat := 144

/-- `VIDEO_EXTENSIONS` (lines 20-21). -/
def VIDEO_EXTENSIONS : List String :=
  [".mp4", ".avi", ".mkv", ".mov", ".wmv", ".flv",
   ".webm", ".m4v", ".mpeg", ".mpg", ".3gp", ".ts", ".vob"]

/-- `suffix.lower() in VIDEO_EXTENSIONS` (line 109), on an already-lowered
extension. -/
def isVideoExt (e : String) : Bool := VIDEO_EXTENSIONS.contains e

/-- The persisted state map: a Python dict keyed by lowered path strings. -/
abbrev StateMap := List (MPath × St)

/-- `self.state.get(key)` — first binding wins, as in a dict. -/
def getS : StateMap → MPath → Option St
  | [], _ => none
  | (k, v) :: t, q => if k = q then some v else getS t q

/-- `self.state[key] = v` — update the binding in place. -/
def setS : StateMap → MPath → St → StateMap
  | [], k, v => [(k, v)]
  | (k, v) :: t, q, w => if k = q then (q, w) :: t else (k, v) :: setS t q w

/-- Filesystem: the list of regular files currently on disk. -/
abbrev Fs := List MFile

/-- `path.exists()` / `path.stat()`: find the file at a path. -/
def lookupFile : Fs → MPath → Option MFile
  | [], _ => none
  | g :: t, p => if pth g = p then some g else lookupFile t p

/-- `path.unlink()`: remove the file at a path. -/
def eraseFile : Fs → MPath → Fs
  | [], _ => []
  | g :: t, p => if pth g = p then eraseFile t p else g :: eraseFile t p

/-- Create (or overwrite) a file. -/
def putFile (fs : Fs) (f : MFile) : Fs := f :: eraseFile fs (pth f)

/-- Observable side effects, in program order. -/
inductive Ev
  | mutate (k : MPath) (s : St)
  | save
  | unlink (p : MPath)
  | rename (src dst : MPath)
deriving DecidableEq, Repr

/-- Accumulator threaded through the `scan_videos` loop (lines 101-158):
state map, worklist, the two counters, the paths probed so far, and the
event trace. -/
structure ScanAcc where
  st : StateMap
  queue : List (MFile × Nat × Nat)
  skippedCount : Nat
  doneCount : Nat
  probed : List MPath
  tr : List Ev
deriving Repr

/-- One iteration of the `scan_videos` loop body (lines 105-149). -/
def scanStep (a : ScanAcc) (f : MFile) : ScanAcc :=
  if isVideoExt (lowerStr f.ext) = false then a
  else if isTempName (fname f) = true then a
  else if getS a.st (skey f) = some St.converted then
    { a with doneCount := a.doneCount + 1 }
  else
    let a1 := { a with probed := a.probed ++ [pth f] }
    match f.res with
    | none => { a1 with skippedCount := a1.skippedCount + 1 }
    | some (w, h) =>
      if lowerStr f.ext = ".3gp" ∧ w = TARGET_WIDTH ∧ h = TARGET_HEIGHT then
        { a1 with st := setS a1.st (skey f) St.skipped,
                  tr := a1.tr ++ [Ev.mutate (skey f) St.skipped],
                  skippedCount := a1.skippedCount + 1 }
      else if TARGET_WIDTH < w ∨ TARGET_HEIGHT < h then
        { a1 with queue := a1.queue ++ [(f, w, h)] }
      else if w = TARGET_WIDTH ∧ h = TARGET_HEIGHT ∧ lowerStr f.ext ≠ ".3gp" then
        { a1 with queue := a1.queue ++ [(f, w, h)] }
      else
        { a1 with st := setS a1.st (skey f) St.skipped,
                  tr := a1.tr ++ [Ev.mutate (skey f) St.skipped],
                  skippedCount := a1.skippedCount + 1 }

/-- `scan_videos` (lines 97-158): fold the loop body over the enumerated
files, then `save_state()` once (line 157). -/
def scan_videos (st : StateMap) (fs : Fs) : ScanAcc :=
  let a := fs.foldl scanStep ⟨st, [], 0, 0, [], []⟩
  { a with tr := a.tr ++ [Ev.save] }

/-- The temp file an ffmpeg run may leave at `temp_{stem}.3gp`: the
resolution its probe would later report and its byte size. -/
structure TempOut where
  res : Option (Nat × Nat)
  size : Nat
deriving DecidableEq, Repr

/-- Observable outcome of one ffmpeg invocation (lines 193-200): whether it
hit the 300 s timeout, its exit code, and the temp output it produced
(if any; `-y` overwrites any stale temp file). -/
structure EncRun where
  timedOut : Bool
  exitCode : Nat
  produced : Option TempOut
deriving DecidableEq, Repr

/-- The failure reasons `convert_video` can report (lines 204-213 and the
arithmetic on lines 222-224). -/
inductive CReason
  | ffmpegExit (code : Nat)
  | timedOut
  | outputMissing
  | outputTooSmall (size : Nat)
  | statError
  | zeroDivision
deriving DecidableEq, Repr

/-- The `('success', msg)` / `('error', msg)` value returned by
`convert_video`; a success carries the two sizes the savings message is
computed from (lines 222-224) and whether the original was kept. -/
inductive CResult
  | success (name : String) (origSize newSize : Nat) (keptOriginal : Bool)
  | error (name : String) (reason : CReason)
deriving DecidableEq, Repr

/-- Result of one `convert_video` call: final filesystem, state map, event
trace, and the returned value. -/
structure ConvOut where
  fs : Fs
  st : StateMap
  tr : List Ev
  res : CResult
deriving Repr

/-- `temp_output = file_path.parent / f"temp_{file_path.stem}.3gp"`
(line 164), as the file ffmpeg writes. -/
def tmpFile (f : MFile) (t : TempOut) : MFile :=
  ⟨f.dir, "temp_" ++ f.stem, ".3gp", t.res, t.size⟩

/-- The temp output path (line 164). -/
def tmpPath (f : MFile) : MPath := ⟨f.dir, ("temp_" ++ f.stem) ++ ".3gp"⟩

/-- `final_output = file_path.parent / f"{file_path.stem}.3gp"` (line 165). -/
def finPath (f : MFile) : MPath := ⟨f.dir, f.stem ++ ".3gp"⟩

/-- The converted file once the temp output is renamed to `final_output`. -/
def convFile (f : MFile) (t : TempOut) : MFile :=
  ⟨f.dir, f.stem, ".3gp", t.res, t.size⟩

/-- The `except` cleanup (lines 239-241): delete the temp output if it
exists. Returns the filesystem and the unlink events performed. -/
def cleanupTemp (fs : Fs) (f : MFile) : Fs × List Ev :=
  if (lookupFile fs (tmpPath f)).isSome then
    (eraseFile fs (tmpPath f), [Ev.unlink (tmpPath f)])
  else (fs, [])

/-- The whole `except` branch (lines 238-246): cleanup, mark `failed`,
save, return an error result naming the file and the reason. -/
def failOut (fs : Fs) (st : StateMap) (f : MFile) (pre : List Ev)
    (r : CReason) : ConvOut :=
  let c := cleanupTemp fs f
  ⟨c.1, setS st (skey f) St.failed,
   pre ++ c.2 ++ [Ev.mutate (skey f) St.failed, Ev.save],
   CResult.error (fname f) r⟩

/-- Lines 215-236: the success path once validation has passed, on the
filesystem `fs1` left by the encoder run, with `tf` the validated temp
output: remove any pre-existing final output (lines 216-217), rename temp
to final (line 219), stat the original and the new file for the savings
message (lines 222-224; a vanished original or a zero-byte original makes
the arithmetic raise, landing in the `except` branch), unlink the original
unless originals are kept (lines 227-228), then mark `converted` and save
(lines 233-234). -/
def convertFinish (keep : Bool) (fs1 : Fs) (st : StateMap) (f : MFile)
    (tf : MFile) : ConvOut :=
  let pre := (lookupFile fs1 (finPath f)).isSome
  let fs2 := if pre then eraseFile fs1 (finPath f) else fs1
  let fs3 := putFile (eraseFile fs2 (tmpPath f)) (convFile f ⟨tf.res, tf.size⟩)
  let ev1 := (if pre then [Ev.unlink (finPath f)] else [])
              ++ [Ev.rename (tmpPath f) (finPath f)]
  match lookupFile fs3 (pth f) with
  | none => failOut fs3 st f ev1 CReason.statError
  | some orig =>
    if orig.size = 0 then failOut fs3 st f ev1 CReason.zeroDivision
    else
      let fs4 := if keep then fs3 else eraseFile fs3 (pth f)
      let ev2 := if keep then ([] : List Ev) else [Ev.unlink (pth f)]
      ⟨fs4, setS st (skey f) St.converted,
       ev1 ++ ev2 ++ [Ev.mutate (skey f) St.converted, Ev.save],
       CResult.success (fname f) orig.size tf.size keep⟩

/-- The filesystem after the ffmpeg subprocess ran (lines 193-200): the
temp output it produced, if any, now exists (`-y` overwrote any stale one). -/
def encFs (fs : Fs) (f : MFile) (enc : EncRun) : Fs :=
  match enc.produced with
  | some t => putFile fs (tmpFile f t)
  | none => fs

/-- `convert_video` (lines 160-246) for one candidate `(file_path, w, h)`,
given the injected ffmpeg outcome `enc`: validation checks in code order
(exit code, temp existence, temp size), then the success path. -/
def convert_video (keep : Bool) (fs : Fs) (st : StateMap)
    (cand : MFile × Nat × Nat) (enc : EncRun) : ConvOut :=
  let f := cand.1
  let fs1 := encFs fs f enc
  if enc.timedOut = true then failOut fs1 st f [] CReason.timedOut
  else if enc.exitCode ≠ 0 then failOut fs1 st f [] (CReason.ffmpegExit enc.exitCode)
  else match lookupFile fs1 (tmpPath f) with
    | none => failOut fs1 st f [] CReason.outputMissing
    | some tf =>
      if tf.size < 1024 then failOut fs1 st f [] (CReason.outputTooSmall tf.size)
      else convertFinish keep fs1 st f tf


/-- Run the worklist through `convert_video` (the executor side of `run`,
lines 274-286; workers touch disjoint files, modelled sequentially), with
`enc` giving each source path's ffmpeg outcome. -/
def runConversions (keep : Bool) (enc : MPath → EncRun) :
    Fs → StateMap → List (MFile × Nat × Nat) → Fs × StateMap
  | fs, st, [] => (fs, st)
  | fs, st, c :: rest =>
    let o := convert_video keep fs st c (enc (pth c.1))
    runConversions keep enc o.fs o.st rest

/-- One video stream entry of ffprobe's JSON output: `stream.get('width')` /
`stream.get('height')` may each be absent (line 90). -/
structure VStream where
  width : Option Nat
  height : Option Nat
deriving DecidableEq, Repr

/-- ffprobe's stdout: malformed (so `json.loads` raises), or a JSON object
whose `streams` key is absent (`none`) or holds a list of streams. -/
inductive ProbeStdout
  | malformed
  | json (streams : Option (List VStream))
deriving DecidableEq, Repr

/-- Observable outcome of one ffprobe invocation (line 82): 10 s timeout
(which raises) or an exit with a code and stdout. -/
inductive ProbeOut
  | timeout
  | exited (code : Nat) (stdout : ProbeStdout)
deriving DecidableEq, Repr

/-- `get_video_resolution` (lines 70-95): every raised exception (timeout,
malformed JSON) is caught and degraded to `None`; nonzero exit and a missing
or empty `streams` list also give `None`; otherwise the width/height pair of
the first stream (each component itself optional, from `dict.get`). -/
def get_video_resolution (o : ProbeOut) : Option (Option Nat × Option Nat) :=
  match o with
  | ProbeOut.timeout => none
  | ProbeOut.exited c out =>
    if c ≠ 0 then none
    else match out with
      | ProbeStdout.malformed => none
      | ProbeStdout.json none => none
      | ProbeStdout.json (some []) => none
      | ProbeStdout.json (some (s :: _)) => some (s.width, s.height)

/-- Is this event a state-map mutation? -/
def isMut : Ev → Bool
  | Ev.mutate _ _ => true
  | _ => false

/-- The persistence discipline C6 claims, checked along a trace: after
every state-map mutation a save must occur before any further mutation
(and before the run ends). The Boolean flag records a pending unsaved
mutation; a run's trace satisfies the discipline when
`persistDiscipline false tr = true`. -/
def persistDiscipline : Bool → List Ev → Bool
  | false, [] => true
  | true, [] => false
  | false, Ev.mutate _ _ :: rest => persistDiscipline true rest
  | true, Ev.mutate _ _ :: _ => false
  | true, Ev.save :: rest => persistDiscipline false rest
  | pending, _ :: rest => persistDiscipline pending rest

/-- The conclusions C5 asserts for a failed conversion with reason `r`,
starting from filesystem `fs` and state `st`: no temp output remains, the
entry is `failed` and the map was saved right after the mutation, the
source file is untouched, and an error result naming the file is returned. -/
def failedProperly (fs : Fs) (st : StateMap) (f : MFile) (o : ConvOut)
    (r : CReason) : Prop :=
  lookupFile o.fs (tmpPath f) = none ∧
  o.st = setS st (skey f) St.failed ∧
  (∃ l, o.tr = l ++ [Ev.mutate (skey f) St.failed, Ev.save] ∧
        ∀ e ∈ l, isMut e = false) ∧
  lookupFile o.fs (pth f) = lookupFile fs (pth f) ∧
  o.res = CResult.error (fname f) r

/-- A POSIX-style absolute path (leading separator on the directory part). -/
def isAbsolute (p : MPath) : Bool := decide (p.dir.data.take 1 = ['/'])

/-- Modelled from the spec: the "normalized absolute path" the spec says
state keys are built from ("key = normalized absolute path"); relative paths
are resolved against the working directory, absolute ones kept, as
`os.path.abspath` would. The code itself never absolutizes (it keys on
`str(file_path).lower()`, line 116). -/
def specAbs (cwd : String) (p : MPath) : MPath :=
  if isAbsolute p then p else ⟨(cwd ++ "/") ++ p.dir, p.name⟩

/-- Modelled from the spec: the lower-cased absolute path key the spec
describes. -/
def specKeyAbs (cwd : String) (p : MPath) : MPath := skeyP (specAbs cwd p)

/-- A file the Scanner classifies away from the worklist regardless of the
state map: filtered by extension, temp-prefixed, unprobeable, or sized so
that the classification reaches a skip branch (at most target size in both
dimensions without being an exactly-target-sized non-`.3gp`). -/
def ClassSkip (g : MFile) : Prop :=
  isVideoExt (lowerStr g.ext) = false ∨
  isTempName (fname g) = true ∨
  g.res = none ∨
  (∃ w h, g.res = some (w, h) ∧ w ≤ TARGET_WIDTH ∧ h ≤ TARGET_HEIGHT ∧
    ¬ (w = TARGET_WIDTH ∧ h = TARGET_HEIGHT ∧ lowerStr g.ext ≠ ".3gp"))

/-- The success assumption C2 makes of an encoder invocation: no timeout,
exit code 0, and a produced output of at least 1024 bytes at the target
resolution (the fixed scale-and-pad filter's contract). -/
def EncGood (enc : EncRun) : Prop :=
  enc.timedOut = false ∧ enc.exitCode = 0 ∧
  ∃ t, enc.produced = some t ∧ 1024 ≤ t.size ∧
    t.res = some (TARGET_WIDTH, TARGET_HEIGHT)

/-- A file the Scanner will not queue under state map `st`: its key is
already `converted`, or it classifies to a skip. -/
def StOK (st : StateMap) (g : MFile) : Prop :=
  getS st (skey g) = some St.converted ∨ ClassSkip g

/-- The re-encounter property C2 claims of a file after a completed run:
a `converted` or `skipped` state entry, or it is a fresh output already in
the target container at the target resolution. -/
def EntryOK (st : StateMap) (g : MFile) : Prop :=
  getS st (skey g) = some St.converted ∨
  getS st (skey g) = some St.skipped ∨
  (g.ext = ".3gp" ∧ g.res = some (TARGET_WIDTH, TARGET_HEIGHT))

/-- Fixture: a 640x480 `.mp4` (the downscale case). -/
def exMp4Big : MFile := ⟨"/videos", "movie1", ".mp4", some (640, 480), 50000⟩

/-- Fixture: a 176x144 `.3gp` (already at target, target container). -/
def ex3gpExact : MFile := ⟨"/videos", "movie2", ".3gp", some (176, 144), 20000⟩

/-- Fixture: a 176x144 `.mp4` (target size, wrong container). -/
def exMp4Exact : MFile := ⟨"/videos", "movie3", ".mp4", some (176, 144), 30000⟩

/-- Fixture: a 120x90 `.avi` (strictly smaller than target). -/
def exAviSmall : MFile := ⟨"/videos", "movie4", ".avi", some (120, 90), 10000⟩

/-- Fixture: a 176x100 `.mp4` — width equal to target, height below it, so
smaller than target but not strictly smaller in both dimensions. -/
def exMp4Half : MFile := ⟨"/videos", "movie5", ".mp4", some (176, 100), 12000⟩

/-- Fixture: a file whose probe fails (no video stream). -/
def exNoStream : MFile := ⟨"/videos", "movie6", ".mkv", none, 7000⟩

/-- Fixture: a file under a relative root folder, with upper-case letters. -/
def exRel : MFile := ⟨"videos", "Movie7", ".MP4", some (100, 90), 8000⟩

/-- Fixture: an oversized 640x480 `.3gp` (queued, same final path). -/
def ex3gpBig : MFile := ⟨"/videos", "movie8", ".3gp", some (640, 480), 40000⟩

/-- Fixture: an ffmpeg outcome that succeeds with a 176x144 output of
2048 bytes, for every input path. -/
def encOk : MPath → EncRun := fun _ => ⟨false, 0, some ⟨some (176, 144), 2048⟩⟩

/-- Fixture: an ffmpeg outcome that hits the 300 s timeout. -/
def encTimeout : EncRun := ⟨true, 0, none⟩

theorem getS_setS (st : StateMap) (k q : MPath) (v : St) :
    getS (setS st k v) q = if k = q then some v else getS st q := by
  induction st with
  | nil => simp [setS, getS]
  | cons hd tl ih =>
    obtain ⟨a, b⟩ := hd
    by_cases hak : a = k
    · subst hak
      by_cases haq : a = q <;> simp [setS, getS, haq]
    · by_cases haq : a = q
      · subst haq
        have hkq : k ≠ a := fun h => hak h.symm
        simp [setS, getS, hak, hkq]
      · simp [setS, getS, hak, haq, ih]

theorem getS_setS_self (st : StateMap) (k : MPath) (v : St) :
    getS (setS st k v) k = some v := by
  simp [getS_setS]

theorem getS_setS_ne (st : StateMap) (k q : MPath) (v : St) (h : k ≠ q) :
    getS (setS st k v) q = getS st q := by
  simp [getS_setS, h]

theorem lookupFile_eraseFile (fs : Fs) (p q : MPath) :
    lookupFile (eraseFile fs p) q = if q = p then none else lookupFile fs q := by
  induction fs with
  | nil => simp [eraseFile, lookupFile]
  | cons g t ih =>
    by_cases hg : pth g = p
    · rw [eraseFile, if_pos hg, ih]
      by_cases hq : q = p
      · simp [hq]
      · have : pth g ≠ q := fun h => hq (hg ▸ h.symm ▸ rfl)
        simp [lookupFile, hq, this]
    · rw [eraseFile, if_neg hg]
      by_cases hgq : pth g = q
      · have hq : q ≠ p := fun h => hg (hgq.symm ▸ h ▸ rfl)
        simp [lookupFile, hgq, hq]
      · simp [lookupFile, hgq, ih]

theorem lookupFile_putFile (fs : Fs) (f : MFile) (q : MPath) :
    lookupFile (putFile fs f) q = if pth f = q then some f else lookupFile fs q := by
  by_cases h : pth f = q
  · simp [putFile, lookupFile, h]
  · have hq : ¬ q = pth f := fun hh => h hh.symm
    simp [putFile, lookupFile, h, lookupFile_eraseFile, hq]

theorem mem_of_mem_eraseFile {fs : Fs} {p : MPath} {g : MFile}
    (h : g ∈ eraseFile fs p) : g ∈ fs := by
  induction fs with
  | nil => simp [eraseFile] at h
  | cons x t ih =>
    by_cases hx : pth x = p
    · rw [eraseFile, if_pos hx] at h
      exact List.mem_cons_of_mem x (ih h)
    · rw [eraseFile, if_neg hx] at h
      rcases List.mem_cons.mp h with h1 | h1
      · exact h1 ▸ List.mem_cons_self x t
      · exact List.mem_cons_of_mem x (ih h1)

theorem mem_putFile {fs : Fs} {f g : MFile} (h : g ∈ putFile fs f) :
    g = f ∨ g ∈ fs := by
  rcases List.mem_cons.mp h with h1 | h1
  · exact Or.inl h1
  · exact Or.inr (mem_of_mem_eraseFile h1)

theorem lookupFile_isSome_of_mem {fs : Fs} {g : MFile} (h : g ∈ fs) :
    (lookupFile fs (pth g)).isSome = true := by
  induction fs with
  | nil => simp at h
  | cons x t ih =>
    rcases List.mem_cons.mp h with h1 | h1
    · subst h1; simp [lookupFile]
    · by_cases hx : pth x = pth g
      · simp [lookupFile, hx]
      · simp [lookupFile, hx, ih h1]

theorem mem_of_lookupFile {fs : Fs} {p : MPath} {g : MFile}
    (h : lookupFile fs p = some g) : g ∈ fs ∧ pth g = p := by
  induction fs with
  | nil => simp [lookupFile] at h
  | cons x t ih =>
    by_cases hx : pth x = p
    · rw [lookupFile, if_pos hx] at h
      have hxg : x = g := by injection h
      subst hxg
      exact ⟨List.mem_cons_self x t, hx⟩
    · rw [lookupFile, if_neg hx] at h
      exact ⟨List.mem_cons_of_mem x (ih h).1, (ih h).2⟩

theorem string_append_left_cancel {s a b : String} (h : s ++ a = s ++ b) :
    a = b := by
  have hd : s.data ++ a.data = s.data ++ b.data := by
    have := congrArg String.data h
    simpa [String.data_append] using this
  have hab : a.data = b.data := List.append_cancel_left hd
  cases a
  cases b
  exact congrArg String.mk hab

theorem isTempName_append (s e : String) :
    isTempName (("temp_" ++ s) ++ e) = true := by
  rw [isTempName, decide_eq_true_eq]
  have hd : (("temp_" ++ s) ++ e).data = "temp_".data ++ (s.data ++ e.data) := by
    simp [String.data_append]
  rw [hd]
  exact List.take_left' rfl

theorem ne_tmpPath_of_notTemp {f : MFile} (h : isTempName (fname f) = false)
    (g : MFile) : pth f ≠ tmpPath g := by
  intro he
  have hn : fname f = ("temp_" ++ g.stem) ++ ".3gp" := congrArg MPath.name he
  rw [hn, isTempName_append] at h
  cases h

theorem tmpPath_ne_finPath_self (f : MFile) : tmpPath f ≠ finPath f := by
  intro h
  have hn : ("temp_" ++ f.stem) ++ ".3gp" = f.stem ++ ".3gp" :=
    congrArg MPath.name h
  have hl := congrArg String.length hn
  simp only [String.length_append] at hl
  have h5 : "temp_".length = 5 := rfl
  rw [h5] at hl
  omega

theorem finPath_eq_pth_iff (f : MFile) : finPath f = pth f ↔ f.ext = ".3gp" := by
  constructor
  · intro h
    have hn : f.stem ++ ".3gp" = f.stem ++ f.ext := congrArg MPath.name h
    exact (string_append_left_cancel hn).symm
  · intro h
    simp [finPath, pth, h]

theorem scanStep_noVideo {f : MFile} (h : isVideoExt (lowerStr f.ext) = false)
    (a : ScanAcc) : scanStep a f = a := by
  simp [scanStep, h]

theorem scanStep_temp {f : MFile} (h : isTempName (fname f) = true)
    (a : ScanAcc) : scanStep a f = a := by
  by_cases h1 : isVideoExt (lowerStr f.ext) = false <;> simp [scanStep, h1, h]

theorem scanStep_done {a : ScanAcc} {f : MFile}
    (h1 : isVideoExt (lowerStr f.ext) = true)
    (h2 : isTempName (fname f) = false)
    (h3 : getS a.st (skey f) = some St.converted) :
    scanStep a f = { a with doneCount := a.doneCount + 1 } := by
  simp [scanStep, h1, h2, h3]

theorem scanStep_probeFail {a : ScanAcc} {f : MFile}
    (h1 : isVideoExt (lowerStr f.ext) = true)
    (h2 : isTempName (fname f) = false)
    (h3 : getS a.st (skey f) ≠ some St.converted)
    (h4 : f.res = none) :
    scanStep a f = { a with probed := a.probed ++ [pth f],
                            skippedCount := a.skippedCount + 1 } := by
  simp [scanStep, h1, h2, h3, h4]

theorem scanStep_skip3gp {a : ScanAcc} {f : MFile} {w h : Nat}
    (h1 : isVideoExt (lowerStr f.ext) = true)
    (h2 : isTempName (fname f) = false)
    (h3 : getS a.st (skey f) ≠ some St.converted)
    (h4 : f.res = some (w, h))
    (h5 : lowerStr f.ext = ".3gp") (h6 : w = TARGET_WIDTH) (h7 : h = TARGET_HEIGHT) :
    scanStep a f = { a with probed := a.probed ++ [pth f],
                            st := setS a.st (skey f) St.skipped,
                            tr := a.tr ++ [Ev.mutate (skey f) St.skipped],
                            skippedCount := a.skippedCount + 1 } := by
  simp [scanStep, h1, h2, h3, h4, h5, h6, h7,
        show isVideoExt ".3gp" = true from rfl]

theorem scanStep_queueBig {a : ScanAcc} {f : MFile} {w h : Nat}
    (h1 : isVideoExt (lowerStr f.ext) = true)
    (h2 : isTempName (fname f) = false)
    (h3 : getS a.st (skey f) ≠ some St.converted)
    (h4 : f.res = some (w, h))
    (h5 : TARGET_WIDTH < w ∨ TARGET_HEIGHT < h) :
    scanStep a f = { a with probed := a.probed ++ [pth f],
                            queue := a.queue ++ [(f, w, h)] } := by
  have hno : ¬ (lowerStr f.ext = ".3gp" ∧ w = TARGET_WIDTH ∧ h = TARGET_HEIGHT) := by
    rintro ⟨-, hw, hh⟩
    subst hw; subst hh
    rcases h5 with h5 | h5 <;> exact Nat.lt_irrefl _ h5
  simp [scanStep, h1, h2, h3, h4, hno, h5]

theorem scanStep_queueFmt {a : ScanAcc} {f : MFile} {w h : Nat}
    (h1 : isVideoExt (lowerStr f.ext) = true)
    (h2 : isTempName (fname f) = false)
    (h3 : getS a.st (skey f) ≠ some St.converted)
    (h4 : f.res = some (w, h))
    (h5 : w = TARGET_WIDTH) (h6 : h = TARGET_HEIGHT)
    (h7 : lowerStr f.ext ≠ ".3gp") :
    scanStep a f = { a with probed := a.probed ++ [pth f],
                            queue := a.queue ++ [(f, w, h)] } := by
  have hno1 : ¬ (lowerStr f.ext = ".3gp" ∧ w = TARGET_WIDTH ∧ h = TARGET_HEIGHT) := by
    rintro ⟨he, -, -⟩; exact h7 he
  have hno2 : ¬ (TARGET_WIDTH < w ∨ TARGET_HEIGHT < h) := by
    subst h5; subst h6
    rintro (hx | hx) <;> exact Nat.lt_irrefl _ hx
  simp [scanStep, h1, h2, h3, h4, hno1, hno2, h5, h6, h7]

theorem scanStep_skipSmall {a : ScanAcc} {f : MFile} {w h : Nat}
    (h1 : isVideoExt (lowerStr f.ext) = true)
    (h2 : isTempName (fname f) = false)
    (h3 : getS a.st (skey f) ≠ some St.converted)
    (h4 : f.res = some (w, h))
    (h5 : w ≤ TARGET_WIDTH) (h6 : h ≤ TARGET_HEIGHT)
    (h7 : ¬ (w = TARGET_WIDTH ∧ h = TARGET_HEIGHT)) :
    scanStep a f = { a with probed := a.probed ++ [pth f],
                            st := setS a.st (skey f) St.skipped,
                            tr := a.tr ++ [Ev.mutate (skey f) St.skipped],
                            skippedCount := a.skippedCount + 1 } := by
  have hno1 : ¬ (lowerStr f.ext = ".3gp" ∧ w = TARGET_WIDTH ∧ h = TARGET_HEIGHT) := by
    rintro ⟨-, hw, hh⟩; exact h7 ⟨hw, hh⟩
  have hno2 : ¬ (TARGET_WIDTH < w ∨ TARGET_HEIGHT < h) := by
    rintro (hx | hx) <;> omega
  have hno3 : ¬ (w = TARGET_WIDTH ∧ h = TARGET_HEIGHT ∧ lowerStr f.ext ≠ ".3gp") := by
    rintro ⟨hw, hh, -⟩; exact h7 ⟨hw, hh⟩
  simp [scanStep, h1, h2, h3, h4, hno1, hno2, hno3]

/-- C8: probe contract. `get_video_resolution` returns `none` when the
prober times out, exits nonzero, yields malformed output, or reports no
video stream; otherwise it returns the (width, height) pair of the first
video stream. It is a total function, so no exception reaches the caller. -/
theorem c8_probe_contract :
    (get_video_resolution ProbeOut.timeout = none) ∧
    (∀ c out, c ≠ 0 → get_video_resolution (ProbeOut.exited c out) = none) ∧
    (get_video_resolution (ProbeOut.exited 0 ProbeStdout.malformed) = none) ∧
    (get_video_resolution (ProbeOut.exited 0 (ProbeStdout.json none)) = none) ∧
    (get_video_resolution (ProbeOut.exited 0 (ProbeStdout.json (some []))) = none) ∧
    (∀ s rest, get_video_resolution
        (ProbeOut.exited 0 (ProbeStdout.json (some (s :: rest))))
      = some (s.width, s.height)) := by
  refine ⟨rfl, ?_, rfl, rfl, rfl, fun s rest => rfl⟩
  intro c out hc
  simp [get_video_resolution, hc]

/-- C8 witness: a nonzero ffprobe exit degrades to `none`. -/
theorem c8_probe_contract_witness :
    (1 : Nat) ≠ 0 ∧
    get_video_resolution (ProbeOut.exited 1 ProbeStdout.malformed) = none :=
  ⟨by decide, c8_probe_contract.2.1 1 ProbeStdout.malformed (by decide)⟩

/-- C1 counterexample: a 176x100 `.mp4` reaches the scanner's residual
branch — it is marked `skipped` and not queued — yet it is not strictly
smaller than the target in both dimensions (width equals the target), and
it satisfies none of the claim's first three case conditions either; so the
claim's description of the residual case as "strictly smaller than target
in both dimensions" is wrong. -/
theorem c1_counterexample :
    getS (scan_videos [] [exMp4Half]).st (skey exMp4Half) = some St.skipped ∧
    (scan_videos [] [exMp4Half]).queue = [] ∧
    exMp4Half.res = some (176, 100) ∧
    ¬ (176 < TARGET_WIDTH ∧ 100 < TARGET_HEIGHT) ∧
    ¬ (lowerStr exMp4Half.ext = ".3gp" ∧ 176 = TARGET_WIDTH ∧ 100 = TARGET_HEIGHT) ∧
    ¬ (TARGET_WIDTH < 176 ∨ TARGET_HEIGHT < 100) ∧
    ¬ (176 = TARGET_WIDTH ∧ 100 = TARGET_HEIGHT ∧ lowerStr exMp4Half.ext ≠ ".3gp") := by
  decide

/-- C1 (amended): the scanner's four-way classification for a probed
candidate, with the residual case characterized correctly: a file at most
target-sized in both dimensions that is not exactly 176x144 (rather than
only the files strictly smaller in both dimensions) is marked `skipped`
and not queued. The spec's separate sentence that strictly-smaller files
are never queued is the last conjunct. -/
theorem c1_classification_policy {a : ScanAcc} {f : MFile} {w h : Nat}
    (h1 : isVideoExt (lowerStr f.ext) = true)
    (h2 : isTempName (fname f) = false)
    (h3 : getS a.st (skey f) ≠ some St.converted)
    (h4 : f.res = some (w, h)) :
    (lowerStr f.ext = ".3gp" → w = TARGET_WIDTH → h = TARGET_HEIGHT →
      (scanStep a f).st = setS a.st (skey f) St.skipped ∧
      (scanStep a f).queue = a.queue) ∧
    (TARGET_WIDTH < w ∨ TARGET_HEIGHT < h →
      (scanStep a f).queue = a.queue ++ [(f, w, h)] ∧
      (scanStep a f).st = a.st) ∧
    (w = TARGET_WIDTH → h = TARGET_HEIGHT → lowerStr f.ext ≠ ".3gp" →
      (scanStep a f).queue = a.queue ++ [(f, w, h)] ∧
      (scanStep a f).st = a.st) ∧
    (w ≤ TARGET_WIDTH → h ≤ TARGET_HEIGHT → ¬ (w = TARGET_WIDTH ∧ h = TARGET_HEIGHT) →
      (scanStep a f).st = setS a.st (skey f) St.skipped ∧
      (scanStep a f).queue = a.queue) ∧
    (w < TARGET_WIDTH → h < TARGET_HEIGHT →
      (scanStep a f).st = setS a.st (skey f) St.skipped ∧
      (scanStep a f).queue = a.queue) := by
  refine ⟨?_, ?_, ?_, ?_, ?_⟩
  · intro he hw hh
    rw [scanStep_skip3gp h1 h2 h3 h4 he hw hh]
    exact ⟨rfl, rfl⟩
  · intro hbig
    rw [scanStep_queueBig h1 h2 h3 h4 hbig]
    exact ⟨rfl, rfl⟩
  · intro hw hh he
    rw [scanStep_queueFmt h1 h2 h3 h4 hw hh he]
    exact ⟨rfl, rfl⟩
  · intro hw hh hne
    rw [scanStep_skipSmall h1 h2 h3 h4 hw hh hne]
    exact ⟨rfl, rfl⟩
  · intro hw hh
    have hne : ¬ (w = TARGET_WIDTH ∧ h = TARGET_HEIGHT) := by
      rintro ⟨hw2, -⟩; omega
    rw [scanStep_skipSmall h1 h2 h3 h4 (Nat.le_of_lt hw) (Nat.le_of_lt hh) hne]
    exact ⟨rfl, rfl⟩

/-- C1 witness: the oversized 640x480 `.mp4` fixture is queued with its
state entry untouched. -/
theorem c1_classification_policy_witness :
    isVideoExt (lowerStr exMp4Big.ext) = true ∧
    isTempName (fname exMp4Big) = false ∧
    getS ([] : StateMap) (skey exMp4Big) ≠ some St.converted ∧
    exMp4Big.res = some (640, 480) ∧
    ((scanStep ⟨[], [], 0, 0, [], []⟩ exMp4Big).queue = [] ++ [(exMp4Big, 640, 480)] ∧
     (scanStep ⟨[], [], 0, 0, [], []⟩ exMp4Big).st = []) :=
  ⟨by decide, by decide, by decide, rfl,
   (c1_classification_policy (by decide) (by decide) (by decide) rfl).2.1
     (Or.inl (by decide))⟩

theorem failOut_fs_tmp (fs : Fs) (st : StateMap) (f : MFile) (pre : List Ev)
    (r : CReason) : lookupFile (failOut fs st f pre r).fs (tmpPath f) = none := by
  unfold failOut cleanupTemp
  by_cases hx : (lookupFile fs (tmpPath f)).isSome = true
  · simp [hx, lookupFile_eraseFile]
  · simp only [hx]
    simpa using Option.not_isSome_iff_eq_none.mp hx

theorem failOut_fs_other (fs : Fs) (st : StateMap) (f : MFile) (pre : List Ev)
    (r : CReason) (q : MPath) (hq : q ≠ tmpPath f) :
    lookupFile (failOut fs st f pre r).fs q = lookupFile fs q := by
  unfold failOut cleanupTemp
  by_cases hx : (lookupFile fs (tmpPath f)).isSome = true <;>
    simp [hx, lookupFile_eraseFile, hq]

theorem failOut_st (fs : Fs) (st : StateMap) (f : MFile) (pre : List Ev)
    (r : CReason) : (failOut fs st f pre r).st = setS st (skey f) St.failed := rfl

theorem failOut_res (fs : Fs) (st : StateMap) (f : MFile) (pre : List Ev)
    (r : CReason) : (failOut fs st f pre r).res = CResult.error (fname f) r := rfl

theorem failOut_tr (fs : Fs) (st : StateMap) (f : MFile) (pre : List Ev)
    (r : CReason) : (failOut fs st f pre r).tr
      = (pre ++ (cleanupTemp fs f).2) ++ [Ev.mutate (skey f) St.failed, Ev.save] := by
  unfold failOut
  simp

theorem cleanupTemp_noMut (fs : Fs) (f : MFile) :
    ∀ e ∈ (cleanupTemp fs f).2, isMut e = false := by
  unfold cleanupTemp
  by_cases hx : (lookupFile fs (tmpPath f)).isSome = true <;> simp [hx, isMut]

theorem lookupFile_encFs_src {fs : Fs} {f : MFile} (enc : EncRun)
    (htm : isTempName (fname f) = false) :
    lookupFile (encFs fs f enc) (pth f) = lookupFile fs (pth f) := by
  unfold encFs
  cases hp : enc.produced with
  | none => rfl
  | some t =>
    rw [lookupFile_putFile, if_neg]
    intro hcontra
    exact ne_tmpPath_of_notTemp htm f ((show pth (tmpFile f t) = tmpPath f from rfl) ▸ hcontra).symm

theorem convert_video_fail_timeout {keep : Bool} {fs : Fs} {st : StateMap}
    {f : MFile} {w h : Nat} {enc : EncRun} (ht : enc.timedOut = true) :
    convert_video keep fs st (f, w, h) enc
      = failOut (encFs fs f enc) st f [] CReason.timedOut := by
  simp [convert_video, ht]

theorem convert_video_fail_exit {keep : Bool} {fs : Fs} {st : StateMap}
    {f : MFile} {w h : Nat} {enc : EncRun}
    (ht : enc.timedOut = false) (he : enc.exitCode ≠ 0) :
    convert_video keep fs st (f, w, h) enc
      = failOut (encFs fs f enc) st f [] (CReason.ffmpegExit enc.exitCode) := by
  simp [convert_video, ht, he]

theorem convert_video_fail_missing {keep : Bool} {fs : Fs} {st : StateMap}
    {f : MFile} {w h : Nat} {enc : EncRun}
    (ht : enc.timedOut = false) (he : enc.exitCode = 0)
    (hm : lookupFile (encFs fs f enc) (tmpPath f) = none) :
    convert_video keep fs st (f, w, h) enc
      = failOut (encFs fs f enc) st f [] CReason.outputMissing := by
  simp [convert_video, ht, he, hm]

theorem convert_video_fail_small {keep : Bool} {fs : Fs} {st : StateMap}
    {f : MFile} {w h : Nat} {enc : EncRun} {t : TempOut}
    (ht : enc.timedOut = false) (he : enc.exitCode = 0)
    (hp : enc.produced = some t) (hs : t.size < 1024) :
    convert_video keep fs st (f, w, h) enc
      = failOut (encFs fs f enc) st f [] (CReason.outputTooSmall t.size) := by
  have hl : lookupFile (encFs fs f enc) (tmpPath f) = some (tmpFile f t) := by
    unfold encFs
    rw [hp, lookupFile_putFile,
        if_pos (show pth (tmpFile f t) = tmpPath f from rfl)]
  simp [convert_video, ht, he, hl, hs, tmpFile]

theorem failOut_failedProperly {fs fs1 : Fs} {st : StateMap} {f : MFile}
    {r : CReason} (htm : isTempName (fname f) = false)
    (hsrc : lookupFile fs1 (pth f) = lookupFile fs (pth f)) :
    failedProperly fs st f (failOut fs1 st f [] r) r := by
  refine ⟨failOut_fs_tmp fs1 st f [] r, rfl, ?_, ?_, rfl⟩
  · refine ⟨(cleanupTemp fs1 f).2, ?_, cleanupTemp_noMut fs1 f⟩
    rw [failOut_tr]
    simp
  · rw [failOut_fs_other fs1 st f [] r (pth f) (ne_tmpPath_of_notTemp htm f)]
    exact hsrc

/-- C5: failure handling. For each of the four failure modes (timeout,
nonzero exit, missing output, undersized output) `convert_video` deletes
the temp output if present, sets and saves the `failed` state entry, leaves
the source untouched, and returns an error result carrying the file name
and the failure reason — it is a total function, so no exception escapes. -/
theorem c5_failure_handling {keep : Bool} {fs : Fs} {st : StateMap}
    {f : MFile} {w h : Nat} {enc : EncRun}
    (htm : isTempName (fname f) = false) :
    (enc.timedOut = true →
      failedProperly fs st f (convert_video keep fs st (f, w, h) enc)
        CReason.timedOut) ∧
    (enc.timedOut = false → enc.exitCode ≠ 0 →
      failedProperly fs st f (convert_video keep fs st (f, w, h) enc)
        (CReason.ffmpegExit enc.exitCode)) ∧
    (enc.timedOut = false → enc.exitCode = 0 → enc.produced = none →
      lookupFile fs (tmpPath f) = none →
      failedProperly fs st f (convert_video keep fs st (f, w, h) enc)
        CReason.outputMissing) ∧
    (∀ t, enc.timedOut = false → enc.exitCode = 0 → enc.produced = some t →
      t.size < 1024 →
      failedProperly fs st f (convert_video keep fs st (f, w, h) enc)
        (CReason.outputTooSmall t.size)) := by
  refine ⟨?_, ?_, ?_, ?_⟩
  · intro ht
    rw [convert_video_fail_timeout ht]
    exact failOut_failedProperly htm (lookupFile_encFs_src enc htm)
  · intro ht he
    rw [convert_video_fail_exit ht he]
    exact failOut_failedProperly htm (lookupFile_encFs_src enc htm)
  · intro ht he hp hm
    have hfs1 : encFs fs f enc = fs := by unfold encFs; rw [hp]
    rw [convert_video_fail_missing ht he (by rw [hfs1]; exact hm)]
    exact failOut_failedProperly htm (lookupFile_encFs_src enc htm)
  · intro t ht he hp hs
    rw [convert_video_fail_small ht he hp hs]
    exact failOut_failedProperly htm (lookupFile_encFs_src enc htm)

/-- C5 witness: a timed-out encode on the 640x480 fixture fails properly. -/
theorem c5_failure_handling_witness :
    isTempName (fname exMp4Big) = false ∧
    encTimeout.timedOut = true ∧
    failedProperly [exMp4Big] [] exMp4Big
      (convert_video false [exMp4Big] [] (exMp4Big, 640, 480) encTimeout)
      CReason.timedOut :=
  ⟨by decide, rfl, (c5_failure_handling (by decide)).1 rfl⟩

theorem convert_video_validated {keep : Bool} {fs : Fs} {st : StateMap}
    {f : MFile} {w h : Nat} {enc : EncRun} {t : TempOut}
    (ht : enc.timedOut = false) (he : enc.exitCode = 0)
    (hp : enc.produced = some t) (hs : 1024 ≤ t.size) :
    convert_video keep fs st (f, w, h) enc
      = convertFinish keep (putFile fs (tmpFile f t)) st f (tmpFile f t) := by
  have hfs1 : encFs fs f enc = putFile fs (tmpFile f t) := by
    unfold encFs; rw [hp]
  have hl : lookupFile (putFile fs (tmpFile f t)) (tmpPath f)
      = some (tmpFile f t) := by
    rw [lookupFile_putFile, if_pos (show pth (tmpFile f t) = tmpPath f from rfl)]
  have hns : ¬ ((tmpFile f t).size < 1024) := by
    simp only [tmpFile]
    omega
  simp [convert_video, ht, he, hfs1, hl, hns]

theorem convertFinish_success {keep : Bool} {fs1 : Fs} {st : StateMap}
    {f : MFile} {tf : MFile} {g : MFile}
    (htm : isTempName (fname f) = false)
    (horig : lookupFile fs1 (pth f) = some g)
    (hgz : f.ext = ".3gp" ∨ 0 < g.size)
    (htf : 0 < tf.size) :
    convertFinish keep fs1 st f tf =
      ⟨(if keep
        then putFile (eraseFile
              (if (lookupFile fs1 (finPath f)).isSome = true
               then eraseFile fs1 (finPath f) else fs1) (tmpPath f))
              (convFile f ⟨tf.res, tf.size⟩)
        else eraseFile (putFile (eraseFile
              (if (lookupFile fs1 (finPath f)).isSome = true
               then eraseFile fs1 (finPath f) else fs1) (tmpPath f))
              (convFile f ⟨tf.res, tf.size⟩)) (pth f)),
       setS st (skey f) St.converted,
       (if (lookupFile fs1 (finPath f)).isSome = true
        then [Ev.unlink (finPath f)] else [])
         ++ [Ev.rename (tmpPath f) (finPath f)]
         ++ (if keep then [] else [Ev.unlink (pth f)])
         ++ [Ev.mutate (skey f) St.converted, Ev.save],
       CResult.success (fname f) (if f.ext = ".3gp" then tf.size else g.size)
         tf.size keep⟩ := by
  have htmp_ne : pth f ≠ tmpPath f := ne_tmpPath_of_notTemp htm f
  by_cases hext : f.ext = ".3gp"
  · have hfin : finPath f = pth f := (finPath_eq_pth_iff f).mpr hext
    have hstat : ∀ fs2 : Fs,
        lookupFile (putFile (eraseFile fs2 (tmpPath f))
          (convFile f ⟨tf.res, tf.size⟩)) (pth f)
        = some (convFile f ⟨tf.res, tf.size⟩) := by
      intro fs2
      rw [lookupFile_putFile, if_pos]
      rw [show pth (convFile f ⟨tf.res, tf.size⟩) = finPath f from rfl, hfin]
    have hsz : ¬ (tf.size = 0) := by omega
    simp only [convertFinish]
    rw [hstat]
    simp [hsz, hext, convFile]
  · have hfin_ne : finPath f ≠ pth f := fun hh => hext ((finPath_eq_pth_iff f).mp hh)
    have hconv_ne : pth (convFile f ⟨tf.res, tf.size⟩) ≠ pth f := by
      rw [show pth (convFile f ⟨tf.res, tf.size⟩) = finPath f from rfl]
      exact hfin_ne
    have hstat : ∀ fs2 : Fs, lookupFile fs2 (pth f) = lookupFile fs1 (pth f) →
        lookupFile (putFile (eraseFile fs2 (tmpPath f))
          (convFile f ⟨tf.res, tf.size⟩)) (pth f) = some g := by
      intro fs2 hfs2
      rw [lookupFile_putFile, if_neg hconv_ne, lookupFile_eraseFile,
          if_neg htmp_ne, hfs2, horig]
    have hgz' : ¬ (g.size = 0) := by
      rcases hgz with hgz | hgz
      · exact absurd hgz hext
      · omega
    have hfs2 : lookupFile
        (if (lookupFile fs1 (finPath f)).isSome = true
         then eraseFile fs1 (finPath f) else fs1) (pth f)
        = lookupFile fs1 (pth f) := by
      have hne : ¬ (pth f = finPath f) := fun hc => hfin_ne hc.symm
      by_cases hpre : (lookupFile fs1 (finPath f)).isSome = true <;>
        simp [hpre, lookupFile_eraseFile, hne]
    simp only [convertFinish]
    rw [hstat _ hfs2]
    simp [hgz', hext]

theorem src_lookup_fs1 {fs : Fs} {f : MFile} (t : TempOut)
    (htm : isTempName (fname f) = false)
    (hsrc : lookupFile fs (pth f) = some f) :
    lookupFile (putFile fs (tmpFile f t)) (pth f) = some f := by
  rw [lookupFile_putFile, if_neg, hsrc]
  intro hc
  exact ne_tmpPath_of_notTemp htm f
    ((show pth (tmpFile f t) = tmpPath f from rfl) ▸ hc).symm

/-- C4: executor success postcondition. When the encoder run succeeds and
the output validates, the event trace is exactly: conditional removal of a
pre-existing file at the final output path, then the rename of the temp
output onto the final path, then (unless keep-originals) the unlink of the
source path — strictly after the rename — and finally the `converted`
state-map mutation followed by its save; the resulting state map is the
input map with the file's key set to `converted`. -/
theorem c4_success_postcondition {keep : Bool} {fs : Fs} {st : StateMap}
    {f : MFile} {w h : Nat} {enc : EncRun} {t : TempOut}
    (ht : enc.timedOut = false) (he : enc.exitCode = 0)
    (hp : enc.produced = some t) (hs : 1024 ≤ t.size)
    (htm : isTempName (fname f) = false)
    (hsrc : lookupFile fs (pth f) = some f)
    (hfz : 0 < f.size) :
    (convert_video keep fs st (f, w, h) enc).tr =
      (if (lookupFile (putFile fs (tmpFile f t)) (finPath f)).isSome = true
       then [Ev.unlink (finPath f)] else [])
        ++ [Ev.rename (tmpPath f) (finPath f)]
        ++ (if keep then [] else [Ev.unlink (pth f)])
        ++ [Ev.mutate (skey f) St.converted, Ev.save] ∧
    (convert_video keep fs st (f, w, h) enc).st
      = setS st (skey f) St.converted := by
  have htf : 0 < (tmpFile f t).size := by
    simp only [tmpFile]
    omega
  rw [convert_video_validated ht he hp hs,
      convertFinish_success htm (src_lookup_fs1 t htm hsrc) (Or.inr hfz) htf]
  exact ⟨rfl, rfl⟩

/-- C4 witness: converting the 176x144 `.mp4` fixture (no pre-existing
final output, originals not kept) renames then unlinks the source and marks
`converted`. -/
theorem c4_success_postcondition_witness :
    (convert_video false [exMp4Exact] [] (exMp4Exact, 176, 144)
        (encOk (pth exMp4Exact))).tr =
      (if (lookupFile (putFile [exMp4Exact]
             (tmpFile exMp4Exact ⟨some (176, 144), 2048⟩)) (finPath exMp4Exact)).isSome = true
       then [Ev.unlink (finPath exMp4Exact)] else [])
        ++ [Ev.rename (tmpPath exMp4Exact) (finPath exMp4Exact)]
        ++ (if false then [] else [Ev.unlink (pth exMp4Exact)])
        ++ [Ev.mutate (skey exMp4Exact) St.converted, Ev.save] ∧
    (convert_video false [exMp4Exact] [] (exMp4Exact, 176, 144)
        (encOk (pth exMp4Exact))).st
      = setS [] (skey exMp4Exact) St.converted :=
  @c4_success_postcondition false [exMp4Exact] [] exMp4Exact 176 144
    (encOk (pth exMp4Exact)) ⟨some (176, 144), 2048⟩
    rfl rfl rfl (by decide) (by decide) (by decide) (by decide)

/-- C3: for a queued candidate whose input already has the `.3gp`
extension, the final output path equals the input path; on a successful
encode the source at that path is deleted before the rename even when
keep-originals is set (it is the "pre-existing file at the final path"),
the savings computation compares the converted file against itself (both
reported sizes are the encoder output's size), and when keep-originals is
not set the freshly renamed output is then deleted as the "original",
leaving no file at the final path while the state still records
`converted` and a success result is returned. -/
theorem c3_3gp_self_overwrite {keep : Bool} {fs : Fs} {st : StateMap}
    {f : MFile} {w h : Nat} {enc : EncRun} {t : TempOut}
    (hext : f.ext = ".3gp")
    (ht : enc.timedOut = false) (he : enc.exitCode = 0)
    (hp : enc.produced = some t) (hs : 1024 ≤ t.size)
    (htm : isTempName (fname f) = false)
    (hsrc : lookupFile fs (pth f) = some f) :
    finPath f = pth f ∧
    (convert_video keep fs st (f, w, h) enc).tr =
      [Ev.unlink (pth f), Ev.rename (tmpPath f) (pth f)]
        ++ (if keep then [] else [Ev.unlink (pth f)])
        ++ [Ev.mutate (skey f) St.converted, Ev.save] ∧
    (convert_video keep fs st (f, w, h) enc).res
      = CResult.success (fname f) t.size t.size keep ∧
    (keep = false →
      lookupFile (convert_video keep fs st (f, w, h) enc).fs (pth f) = none) ∧
    getS (convert_video keep fs st (f, w, h) enc).st (skey f)
      = some St.converted := by
  have hfin : finPath f = pth f := (finPath_eq_pth_iff f).mpr hext
  have htf : 0 < (tmpFile f t).size := by
    simp only [tmpFile]
    omega
  have horig := @src_lookup_fs1 fs f t htm hsrc
  have hpre : (lookupFile (putFile fs (tmpFile f t)) (finPath f)).isSome = true := by
    rw [hfin, horig]
    rfl
  rw [convert_video_validated ht he hp hs,
      convertFinish_success htm horig (Or.inl hext) htf]
  refine ⟨hfin, ?_, ?_, ?_, ?_⟩
  · simp [hfin, horig]
  · simp [hext, tmpFile]
  · intro hkeep
    simp [hkeep, lookupFile_eraseFile]
  · simp [getS_setS_self]

/-- C3 witness: the oversized `.3gp` fixture, converted without
keep-originals, reports success with equal sizes and leaves no file at its
own (final) path. -/
theorem c3_3gp_self_overwrite_witness :
    finPath ex3gpBig = pth ex3gpBig ∧
    (convert_video false [ex3gpBig] [] (ex3gpBig, 640, 480)
        (encOk (pth ex3gpBig))).tr =
      [Ev.unlink (pth ex3gpBig), Ev.rename (tmpPath ex3gpBig) (pth ex3gpBig)]
        ++ (if false then [] else [Ev.unlink (pth ex3gpBig)])
        ++ [Ev.mutate (skey ex3gpBig) St.converted, Ev.save] ∧
    (convert_video false [ex3gpBig] [] (ex3gpBig, 640, 480)
        (encOk (pth ex3gpBig))).res
      = CResult.success (fname ex3gpBig) 2048 2048 false ∧
    (false = false →
      lookupFile (convert_video false [ex3gpBig] [] (ex3gpBig, 640, 480)
        (encOk (pth ex3gpBig))).fs (pth ex3gpBig) = none) ∧
    getS (convert_video false [ex3gpBig] [] (ex3gpBig, 640, 480)
        (encOk (pth ex3gpBig))).st (skey ex3gpBig)
      = some St.converted :=
  @c3_3gp_self_overwrite false [ex3gpBig] [] ex3gpBig 640 480
    (encOk (pth ex3gpBig)) ⟨some (176, 144), 2048⟩
    rfl rfl rfl rfl (by decide) (by decide) (by decide)

theorem scanStep_st_shape (a : ScanAcc) (g : MFile) :
    (scanStep a g).st = a.st ∨
    ((scanStep a g).st = setS a.st (skey g) St.skipped ∧
     getS a.st (skey g) ≠ some St.converted ∧ (∃ w h, g.res = some (w, h))) := by
  unfold scanStep
  split
  · exact Or.inl rfl
  · split
    · exact Or.inl rfl
    · split
      · exact Or.inl rfl
      · next hc =>
        split
        · exact Or.inl rfl
        · next w h hres =>
          split
          · exact Or.inr ⟨rfl, hc, w, h, hres⟩
          · split
            · exact Or.inl rfl
            · split
              · exact Or.inl rfl
              · exact Or.inr ⟨rfl, hc, w, h, hres⟩

theorem scanStep_queue_shape (a : ScanAcc) (g : MFile) :
    (scanStep a g).queue = a.queue ∨
    (∃ w h, g.res = some (w, h) ∧
      (scanStep a g).queue = a.queue ++ [(g, w, h)] ∧
      getS a.st (skey g) ≠ some St.converted ∧
      isVideoExt (lowerStr g.ext) = true ∧ isTempName (fname g) = false ∧
      ((TARGET_WIDTH < w ∨ TARGET_HEIGHT < h) ∨
       (w = TARGET_WIDTH ∧ h = TARGET_HEIGHT ∧ lowerStr g.ext ≠ ".3gp"))) := by
  unfold scanStep
  split
  · exact Or.inl rfl
  · next hv =>
    split
    · exact Or.inl rfl
    · next htmp =>
      split
      · exact Or.inl rfl
      · next hc =>
        split
        · exact Or.inl rfl
        · next w h hres =>
          have hv' : isVideoExt (lowerStr g.ext) = true :=
            Bool.of_not_eq_false hv
          have htmp' : isTempName (fname g) = false :=
            Bool.of_not_eq_true htmp
          split
          · exact Or.inl rfl
          · split
            · next hbig =>
              exact Or.inr ⟨w, h, hres, rfl, hc, hv', htmp', Or.inl hbig⟩
            · split
              · next hfmt =>
                exact Or.inr ⟨w, h, hres, rfl, hc, hv', htmp', Or.inr hfmt⟩
              · exact Or.inl rfl

theorem scanStep_probed_shape (a : ScanAcc) (g : MFile) :
    (scanStep a g).probed = a.probed ∨
    ((scanStep a g).probed = a.probed ++ [pth g] ∧
     getS a.st (skey g) ≠ some St.converted) := by
  unfold scanStep
  split
  · exact Or.inl rfl
  · split
    · exact Or.inl rfl
    · split
      · exact Or.inl rfl
      · next hc =>
        split
        · exact Or.inr ⟨rfl, hc⟩
        · split
          · exact Or.inr ⟨rfl, hc⟩
          · split
            · exact Or.inr ⟨rfl, hc⟩
            · split
              · exact Or.inr ⟨rfl, hc⟩
              · exact Or.inr ⟨rfl, hc⟩

theorem scanStep_tr_shape (a : ScanAcc) (g : MFile) :
    (scanStep a g).tr = a.tr ∨
    (scanStep a g).tr = a.tr ++ [Ev.mutate (skey g) St.skipped] := by
  unfold scanStep
  split
  · exact Or.inl rfl
  · split
    · exact Or.inl rfl
    · split
      · exact Or.inl rfl
      · split
        · exact Or.inl rfl
        · split
          · exact Or.inr rfl
          · split
            · exact Or.inl rfl
            · split
              · exact Or.inl rfl
              · exact Or.inr rfl

theorem scanStep_done_mono (a : ScanAcc) (g : MFile) :
    a.doneCount ≤ (scanStep a g).doneCount := by
  unfold scanStep
  split
  · exact Nat.le_refl _
  · split
    · exact Nat.le_refl _
    · split
      · exact Nat.le_succ _
      · split
        · exact Nat.le_refl _
        · split
          · exact Nat.le_refl _
          · split
            · exact Nat.le_refl _
            · split
              · exact Nat.le_refl _
              · exact Nat.le_refl _

theorem foldl_st_conv {k : MPath} :
    ∀ (fs : Fs) (a : ScanAcc), getS a.st k = some St.converted →
      getS (fs.foldl scanStep a).st k = some St.converted := by
  intro fs
  induction fs with
  | nil => exact fun a h => h
  | cons g t ih =>
    intro a h
    rw [List.foldl_cons]
    apply ih
    rcases scanStep_st_shape a g with hs | ⟨hs, hc, -⟩
    · rw [hs]; exact h
    · rw [hs]
      rcases eq_or_ne (skey g) k with he | hne
      · subst he; exact absurd h hc
      · rw [getS_setS_ne _ _ _ _ hne]; exact h

theorem foldl_st_convskip {k : MPath} :
    ∀ (fs : Fs) (a : ScanAcc),
      (getS a.st k = some St.converted ∨ getS a.st k = some St.skipped) →
      (getS (fs.foldl scanStep a).st k = some St.converted ∨
       getS (fs.foldl scanStep a).st k = some St.skipped) := by
  intro fs
  induction fs with
  | nil => exact fun a h => h
  | cons g t ih =>
    intro a h
    rw [List.foldl_cons]
    apply ih
    rcases scanStep_st_shape a g with hs | ⟨hs, -, -⟩
    · rw [hs]; exact h
    · rw [hs]
      rcases eq_or_ne (skey g) k with he | hne
      · subst he; exact Or.inr (getS_setS_self _ _ _)
      · rw [getS_setS_ne _ _ _ _ hne]; exact h

theorem foldl_st_untouched {k : MPath} :
    ∀ (fs : Fs) (a : ScanAcc), (∀ g ∈ fs, skey g = k → g.res = none) →
      getS (fs.foldl scanStep a).st k = getS a.st k := by
  intro fs
  induction fs with
  | nil => exact fun a _ => rfl
  | cons g t ih =>
    intro a hiso
    rw [List.foldl_cons]
    rw [ih _ (fun x hx => hiso x (List.mem_cons_of_mem g hx))]
    rcases scanStep_st_shape a g with hs | ⟨hs, -, w, h, hres⟩
    · rw [hs]
    · rw [hs]
      rcases eq_or_ne (skey g) k with he | hne
      · rw [hiso g (List.mem_cons_self g t) he] at hres
        cases hres
      · rw [getS_setS_ne _ _ _ _ hne]

theorem foldl_probed_conv {p : MPath} :
    ∀ (fs : Fs) (a : ScanAcc),
      getS a.st (skeyP p) = some St.converted → p ∉ a.probed →
      p ∉ (fs.foldl scanStep a).probed := by
  intro fs
  induction fs with
  | nil => exact fun a _ h => h
  | cons g t ih =>
    intro a hconv hp
    rw [List.foldl_cons]
    have hconv2 : getS (scanStep a g).st (skeyP p) = some St.converted := by
      rcases scanStep_st_shape a g with hs | ⟨hs, hc, -⟩
      · rw [hs]; exact hconv
      · rw [hs]
        rcases eq_or_ne (skey g) (skeyP p) with he | hne
        · rw [he] at hc; exact absurd hconv hc
        · rw [getS_setS_ne _ _ _ _ hne]; exact hconv
    apply ih _ hconv2
    rcases scanStep_probed_shape a g with hs | ⟨hs, hc⟩
    · rw [hs]; exact hp
    · rw [hs]
      intro hmem
      rcases List.mem_append.mp hmem with hmem | hmem
      · exact hp hmem
      · have hpg : pth g = p := (List.mem_singleton.mp hmem).symm
        have : skey g = skeyP p := by rw [skey, hpg]
        rw [this] at hc
        exact hc hconv

theorem foldl_queue_conv {f : MFile} :
    ∀ (fs : Fs) (a : ScanAcc),
      getS a.st (skey f) = some St.converted →
      (∀ w h, (f, w, h) ∉ a.queue) →
      ∀ w h, (f, w, h) ∉ (fs.foldl scanStep a).queue := by
  intro fs
  induction fs with
  | nil => exact fun a _ h => h
  | cons g t ih =>
    intro a hconv hq
    rw [List.foldl_cons]
    have hconv2 : getS (scanStep a g).st (skey f) = some St.converted := by
      rcases scanStep_st_shape a g with hs | ⟨hs, hc, -⟩
      · rw [hs]; exact hconv
      · rw [hs]
        rcases eq_or_ne (skey g) (skey f) with he | hne
        · rw [he] at hc; exact absurd hconv hc
        · rw [getS_setS_ne _ _ _ _ hne]; exact hconv
    apply ih _ hconv2
    intro w h hmem
    rcases scanStep_queue_shape a g with hs | ⟨w2, h2, -, hs, hc, -, -, -⟩
    · rw [hs] at hmem; exact hq w h hmem
    · rw [hs] at hmem
      rcases List.mem_append.mp hmem with hmem | hmem
      · exact hq w h hmem
      · have hfg : f = g := congrArg Prod.fst (List.mem_singleton.mp hmem)
        rw [← hfg] at hc
        exact hc hconv

theorem foldl_queue_resnone {f : MFile} (hres : f.res = none) :
    ∀ (fs : Fs) (a : ScanAcc), (∀ w h, (f, w, h) ∉ a.queue) →
      ∀ w h, (f, w, h) ∉ (fs.foldl scanStep a).queue := by
  intro fs
  induction fs with
  | nil => exact fun a h => h
  | cons g t ih =>
    intro a hq
    rw [List.foldl_cons]
    apply ih
    intro w h hmem
    rcases scanStep_queue_shape a g with hs | ⟨w2, h2, hres2, hs, -, -, -, -⟩
    · rw [hs] at hmem; exact hq w h hmem
    · rw [hs] at hmem
      rcases List.mem_append.mp hmem with hmem | hmem
      · exact hq w h hmem
      · have hfg : f = g := congrArg Prod.fst (List.mem_singleton.mp hmem)
        rw [← hfg] at hres2
        rw [hres] at hres2
        cases hres2

theorem foldl_done_mono :
    ∀ (fs : Fs) (a : ScanAcc), a.doneCount ≤ (fs.foldl scanStep a).doneCount := by
  intro fs
  induction fs with
  | nil => exact fun a => Nat.le_refl _
  | cons g t ih =>
    intro a
    rw [List.foldl_cons]
    exact Nat.le_trans (scanStep_done_mono a g) (ih _)

/-- C7: a file whose state-map key is `converted` at scan time is never
probed, never queued (under any resolution), is counted as already done,
and its entry is still `converted` when the scan finishes. -/
theorem c7_converted_never_requeued {st0 : StateMap} {fs : Fs} {f : MFile}
    (hmem : f ∈ fs)
    (hext : isVideoExt (lowerStr f.ext) = true)
    (htmp : isTempName (fname f) = false)
    (hconv : getS st0 (skey f) = some St.converted) :
    pth f ∉ (scan_videos st0 fs).probed ∧
    (∀ w h, (f, w, h) ∉ (scan_videos st0 fs).queue) ∧
    1 ≤ (scan_videos st0 fs).doneCount ∧
    getS (scan_videos st0 fs).st (skey f) = some St.converted := by
  refine ⟨?_, ?_, ?_, ?_⟩
  · exact foldl_probed_conv fs ⟨st0, [], 0, 0, [], []⟩ hconv (List.not_mem_nil _)
  · exact foldl_queue_conv fs ⟨st0, [], 0, 0, [], []⟩ hconv
      (fun w h => List.not_mem_nil _)
  · obtain ⟨l1, l2, rfl⟩ := List.append_of_mem hmem
    show 1 ≤ ((l1 ++ f :: l2).foldl scanStep ⟨st0, [], 0, 0, [], []⟩).doneCount
    rw [List.foldl_append, List.foldl_cons]
    set a1 := l1.foldl scanStep (⟨st0, [], 0, 0, [], []⟩ : ScanAcc) with ha1
    have hconv1 : getS a1.st (skey f) = some St.converted :=
      foldl_st_conv l1 _ hconv
    rw [scanStep_done hext htmp hconv1]
    have hmono := foldl_done_mono l2 { a1 with doneCount := a1.doneCount + 1 }
    have hproj : ({ a1 with doneCount := a1.doneCount + 1 } : ScanAcc).doneCount
        = a1.doneCount + 1 := rfl
    omega
  · exact foldl_st_conv fs ⟨st0, [], 0, 0, [], []⟩ hconv

/-- C7 witness: a `.mp4` fixture with a pre-existing `converted` entry is
not probed, not queued, counted as done, and keeps its entry. -/
theorem c7_converted_never_requeued_witness :
    pth exMp4Big
      ∉ (scan_videos [(skey exMp4Big, St.converted)] [exMp4Big]).probed ∧
    (∀ w h, (exMp4Big, w, h)
      ∉ (scan_videos [(skey exMp4Big, St.converted)] [exMp4Big]).queue) ∧
    1 ≤ (scan_videos [(skey exMp4Big, St.converted)] [exMp4Big]).doneCount ∧
    getS (scan_videos [(skey exMp4Big, St.converted)] [exMp4Big]).st
      (skey exMp4Big) = some St.converted :=
  c7_converted_never_requeued (List.mem_singleton.mpr rfl) (by decide)
    (by decide) (by decide)

/-- C9: a scanned file whose probe returns `None` leaves the state map
unchanged at its key (nothing is recorded for it, so it stays eligible for
retry) and is never queued. -/
theorem c9_probe_failure_no_state {st0 : StateMap} {fs : Fs} {f : MFile}
    (hmem : f ∈ fs) (hres : f.res = none)
    (hiso : ∀ g ∈ fs, skey g = skey f → g.res = none) :
    getS (scan_videos st0 fs).st (skey f) = getS st0 (skey f) ∧
    (∀ w h, (f, w, h) ∉ (scan_videos st0 fs).queue) := by
  refine ⟨?_, ?_⟩
  · exact foldl_st_untouched fs ⟨st0, [], 0, 0, [], []⟩ hiso
  · exact foldl_queue_resnone hres fs ⟨st0, [], 0, 0, [], []⟩
      (fun w h => List.not_mem_nil _)

/-- C9 witness: the probe-failure fixture leaves the (empty) state map
without an entry for it and is not queued. -/
theorem c9_probe_failure_no_state_witness :
    getS (scan_videos [] [exNoStream]).st (skey exNoStream)
      = getS [] (skey exNoStream) ∧
    (∀ w h, (exNoStream, w, h) ∉ (scan_videos [] [exNoStream]).queue) :=
  c9_probe_failure_no_state (List.mem_singleton.mpr rfl) rfl
    (fun g hg _ => by
      rw [List.mem_singleton.mp hg]
      rfl)

theorem persistDiscipline_ok (l : List Ev) (h : ∀ e ∈ l, isMut e = false)
    (k : MPath) (s : St) :
    persistDiscipline false (l ++ [Ev.mutate k s, Ev.save]) = true := by
  induction l with
  | nil => simp [persistDiscipline]
  | cons e t ih =>
    have he := h e (List.mem_cons_self e t)
    have ht : ∀ x ∈ t, isMut x = false :=
      fun x hx => h x (List.mem_cons_of_mem e hx)
    cases e with
    | mutate k2 s2 => simp [isMut] at he
    | save => simpa [persistDiscipline] using ih ht
    | unlink p => simpa [persistDiscipline] using ih ht
    | rename p q => simpa [persistDiscipline] using ih ht

theorem noMut_unlink_rename (c : Prop) [Decidable c] (p q r : MPath) :
    ∀ e ∈ ((if c then [Ev.unlink p] else []) ++ [Ev.rename q r]),
      isMut e = false := by
  intro e he
  rcases List.mem_append.mp he with h | h
  · by_cases hc : c
    · rw [if_pos hc] at h
      rw [List.mem_singleton.mp h]
      rfl
    · rw [if_neg hc] at h
      cases h
  · rw [List.mem_singleton.mp h]
    rfl

theorem failOut_tr_shape (fs : Fs) (st : StateMap) (f : MFile) (pre : List Ev)
    (r : CReason) (hpre : ∀ e ∈ pre, isMut e = false) :
    ∃ l, (failOut fs st f pre r).tr
        = l ++ [Ev.mutate (skey f) St.failed, Ev.save] ∧
      ∀ e ∈ l, isMut e = false := by
  refine ⟨pre ++ (cleanupTemp fs f).2, failOut_tr fs st f pre r, ?_⟩
  intro e he
  rcases List.mem_append.mp he with h | h
  · exact hpre e h
  · exact cleanupTemp_noMut fs f e h

theorem convert_video_fail_small2 {keep : Bool} {fs : Fs} {st : StateMap}
    {f : MFile} {w h : Nat} {enc : EncRun} {tf : MFile}
    (ht : enc.timedOut = false) (he : enc.exitCode = 0)
    (hl : lookupFile (encFs fs f enc) (tmpPath f) = some tf)
    (hs : tf.size < 1024) :
    convert_video keep fs st (f, w, h) enc
      = failOut (encFs fs f enc) st f [] (CReason.outputTooSmall tf.size) := by
  simp [convert_video, ht, he, hl, hs]

theorem convert_video_validated2 {keep : Bool} {fs : Fs} {st : StateMap}
    {f : MFile} {w h : Nat} {enc : EncRun} {tf : MFile}
    (ht : enc.timedOut = false) (he : enc.exitCode = 0)
    (hl : lookupFile (encFs fs f enc) (tmpPath f) = some tf)
    (hs : ¬ tf.size < 1024) :
    convert_video keep fs st (f, w, h) enc
      = convertFinish keep (encFs fs f enc) st f tf := by
  simp [convert_video, ht, he, hl, hs]

theorem convertFinish_tr_shape (keep : Bool) (fs1 : Fs) (st : StateMap)
    (f : MFile) (tf : MFile) :
    ∃ l s, (convertFinish keep fs1 st f tf).tr
        = l ++ [Ev.mutate (skey f) s, Ev.save] ∧
      ∀ e ∈ l, isMut e = false := by
  simp only [convertFinish]
  set pre := (lookupFile fs1 (finPath f)).isSome with hpre
  set fs2 := if pre = true then eraseFile fs1 (finPath f) else fs1 with hfs2
  set fs3 := putFile (eraseFile fs2 (tmpPath f)) (convFile f ⟨tf.res, tf.size⟩)
    with hfs3
  set ev1 := (if pre = true then [Ev.unlink (finPath f)] else [])
    ++ [Ev.rename (tmpPath f) (finPath f)] with hev1d
  have hev1 : ∀ e ∈ ev1, isMut e = false := by
    rw [hev1d]
    exact noMut_unlink_rename _ _ _ _
  rcases hmatch : lookupFile fs3 (pth f) with _ | orig
  · simp only [hmatch]
    obtain ⟨l, hl, hm⟩ := failOut_tr_shape fs3 st f ev1 CReason.statError hev1
    exact ⟨l, St.failed, hl, hm⟩
  · simp only [hmatch]
    by_cases hsz : orig.size = 0
    · rw [if_pos hsz]
      obtain ⟨l, hl, hm⟩ := failOut_tr_shape fs3 st f ev1 CReason.zeroDivision hev1
      exact ⟨l, St.failed, hl, hm⟩
    · rw [if_neg hsz]
      refine ⟨ev1 ++ (if keep = true then [] else [Ev.unlink (pth f)]),
        St.converted, ?_, ?_⟩
      · show ev1 ++ (if keep = true then ([] : List Ev) else [Ev.unlink (pth f)])
            ++ [Ev.mutate (skey f) St.converted, Ev.save] = _
        rw [List.append_assoc]
      · intro e he
        rcases List.mem_append.mp he with h | h
        · exact hev1 e h
        · by_cases hk : keep = true
          · rw [if_pos hk] at h
            cases h
          · rw [if_neg hk] at h
            rw [List.mem_singleton.mp h]
            rfl

theorem convert_video_tr_shape (keep : Bool) (fs : Fs) (st : StateMap)
    (c : MFile × Nat × Nat) (enc : EncRun) :
    ∃ l s, (convert_video keep fs st c enc).tr
        = l ++ [Ev.mutate (skey c.1) s, Ev.save] ∧
      ∀ e ∈ l, isMut e = false := by
  obtain ⟨f, w, h⟩ := c
  by_cases ht : enc.timedOut = true
  · rw [convert_video_fail_timeout ht]
    obtain ⟨l, hl, hm⟩ := failOut_tr_shape _ st f [] CReason.timedOut
      (by intro e he; cases he)
    exact ⟨l, St.failed, hl, hm⟩
  · have ht' : enc.timedOut = false := by
      cases hb : enc.timedOut
      · rfl
      · exact absurd hb ht
    by_cases he : enc.exitCode ≠ 0
    · rw [convert_video_fail_exit ht' he]
      obtain ⟨l, hl, hm⟩ := failOut_tr_shape _ st f []
        (CReason.ffmpegExit enc.exitCode) (by intro e he2; cases he2)
      exact ⟨l, St.failed, hl, hm⟩
    · have he' : enc.exitCode = 0 := Nat.eq_zero_of_not_pos
        (fun hpos => he (Nat.pos_iff_ne_zero.mp hpos))
      rcases hm : lookupFile (encFs fs f enc) (tmpPath f) with _ | tf
      · rw [convert_video_fail_missing ht' he' hm]
        obtain ⟨l, hl, hmm⟩ := failOut_tr_shape _ st f [] CReason.outputMissing
          (by intro e he2; cases he2)
        exact ⟨l, St.failed, hl, hmm⟩
      · by_cases hsz : tf.size < 1024
        · rw [convert_video_fail_small2 ht' he' hm hsz]
          obtain ⟨l, hl, hmm⟩ := failOut_tr_shape _ st f []
            (CReason.outputTooSmall tf.size) (by intro e he2; cases he2)
          exact ⟨l, St.failed, hl, hmm⟩
        · rw [convert_video_validated2 ht' he' hm hsz]
          exact convertFinish_tr_shape keep _ st f tf

theorem foldl_tr_muts :
    ∀ (fs : Fs) (a : ScanAcc), ∃ l, (fs.foldl scanStep a).tr = a.tr ++ l ∧
      ∀ e ∈ l, isMut e = true := by
  intro fs
  induction fs with
  | nil =>
    intro a
    exact ⟨[], by simp, by intro e he; cases he⟩
  | cons g t ih =>
    intro a
    obtain ⟨l, hl, hm⟩ := ih (scanStep a g)
    rw [List.foldl_cons]
    rcases scanStep_tr_shape a g with hs | hs
    · exact ⟨l, by rw [hl, hs], hm⟩
    · refine ⟨[Ev.mutate (skey g) St.skipped] ++ l, ?_, ?_⟩
      · rw [hl, hs, List.append_assoc]
      · intro e he
        rcases List.mem_append.mp he with h | h
        · rw [List.mem_singleton.mp h]
          rfl
        · exact hm e h

/-- C6 counterexample: scanning a folder with two small files produces two
`skipped` mutations and only then a single save (line 157) — the scan phase
batches its mutations, so the second mutation happens with the first not yet
persisted, violating the claimed once-per-mutation persistence discipline. -/
theorem c6_counterexample :
    (scan_videos [] [exAviSmall, exMp4Half]).tr
      = [Ev.mutate (skey exAviSmall) St.skipped,
         Ev.mutate (skey exMp4Half) St.skipped, Ev.save] ∧
    persistDiscipline false (scan_videos [] [exAviSmall, exMp4Half]).tr
      = false := by
  decide

/-- C6 (amended): the Executor persists after every mutation — each
`convert_video` trace satisfies the discipline (its single terminal
mutation is immediately followed by a save) — but the Scanner batches: a
scan trace is a sequence of `skipped` mutations followed by one final save,
so abrupt termination during the scan can lose any number of that pass's
skip markings (they are recomputable), while at most one conversion
outcome can be lost. -/
theorem c6_persistence_discipline :
    (∀ (keep : Bool) (fs : Fs) (st : StateMap) (c : MFile × Nat × Nat)
       (enc : EncRun),
       persistDiscipline false (convert_video keep fs st c enc).tr = true) ∧
    (∀ (st0 : StateMap) (fs : Fs),
       (∀ e ∈ (scan_videos st0 fs).tr.dropLast, isMut e = true) ∧
       (scan_videos st0 fs).tr.getLast? = some Ev.save) := by
  constructor
  · intro keep fs st c enc
    obtain ⟨l, s, hl, hm⟩ := convert_video_tr_shape keep fs st c enc
    rw [hl]
    exact persistDiscipline_ok l hm (skey c.1) s
  · intro st0 fs
    obtain ⟨l, hl, hm⟩ := foldl_tr_muts fs ⟨st0, [], 0, 0, [], []⟩
    have htr : (scan_videos st0 fs).tr = l ++ [Ev.save] := by
      show (fs.foldl scanStep ⟨st0, [], 0, 0, [], []⟩).tr ++ [Ev.save]
          = l ++ [Ev.save]
      rw [hl]
      rfl
    rw [htr]
    constructor
    · rw [List.dropLast_concat]
      exact hm
    · exact List.getLast?_concat l

theorem foldl_st_domain {k : MPath} :
    ∀ (fs : Fs) (a : ScanAcc), (∀ g ∈ fs, skey g ≠ k) →
      getS (fs.foldl scanStep a).st k = getS a.st k := by
  intro fs
  induction fs with
  | nil => exact fun a _ => rfl
  | cons g t ih =>
    intro a hdom
    rw [List.foldl_cons,
        ih _ (fun x hx => hdom x (List.mem_cons_of_mem g hx))]
    rcases scanStep_st_shape a g with hs | ⟨hs, -, -⟩
    · rw [hs]
    · rw [hs, getS_setS_ne _ _ _ _ (hdom g (List.mem_cons_self g t))]

theorem convertFinish_st_shape (keep : Bool) (fs1 : Fs) (st : StateMap)
    (f : MFile) (tf : MFile) :
    ∃ v, (convertFinish keep fs1 st f tf).st = setS st (skey f) v := by
  simp only [convertFinish]
  rcases hmatch : lookupFile
      (putFile (eraseFile
        (if (lookupFile fs1 (finPath f)).isSome = true
         then eraseFile fs1 (finPath f) else fs1) (tmpPath f))
        (convFile f ⟨tf.res, tf.size⟩)) (pth f) with _ | orig
  · simp only [hmatch]
    exact ⟨St.failed, rfl⟩
  · simp only [hmatch]
    by_cases hsz : orig.size = 0
    · rw [if_pos hsz]
      exact ⟨St.failed, rfl⟩
    · rw [if_neg hsz]
      exact ⟨St.converted, rfl⟩

theorem convert_video_st_shape (keep : Bool) (fs : Fs) (st : StateMap)
    (c : MFile × Nat × Nat) (enc : EncRun) :
    ∃ v, (convert_video keep fs st c enc).st = setS st (skey c.1) v := by
  obtain ⟨f, w, h⟩ := c
  by_cases ht : enc.timedOut = true
  · rw [convert_video_fail_timeout ht]
    exact ⟨St.failed, rfl⟩
  · have ht' : enc.timedOut = false := by
      cases hb : enc.timedOut
      · rfl
      · exact absurd hb ht
    by_cases he : enc.exitCode ≠ 0
    · rw [convert_video_fail_exit ht' he]
      exact ⟨St.failed, rfl⟩
    · have he' : enc.exitCode = 0 := Nat.eq_zero_of_not_pos
        (fun hpos => he (Nat.pos_iff_ne_zero.mp hpos))
      rcases hm : lookupFile (encFs fs f enc) (tmpPath f) with _ | tf
      · rw [convert_video_fail_missing ht' he' hm]
        exact ⟨St.failed, rfl⟩
      · by_cases hsz : tf.size < 1024
        · rw [convert_video_fail_small2 ht' he' hm hsz]
          exact ⟨St.failed, rfl⟩
        · rw [convert_video_validated2 ht' he' hm hsz]
          exact convertFinish_st_shape keep _ st f tf

/-- C10 counterexample: with the relative root folder `videos`, scanning
the `videos/Movie7.MP4` fixture writes the key `videos/movie7.mp4` — the
lower-cased path exactly as constructed from the root, which is not an
absolute path and differs from the lower-cased absolute path the spec
prescribes (here resolved against the working directory `/home/user`). -/
theorem c10_counterexample :
    getS (scan_videos [] [exRel]).st ⟨"videos", "movie7.mp4"⟩
      = some St.skipped ∧
    skeyP (pth exRel) = ⟨"videos", "movie7.mp4"⟩ ∧
    isAbsolute (pth exRel) = false ∧
    skeyP (pth exRel) ≠ specKeyAbs "/home/user" (pth exRel) := by
  decide

/-- C10 (amended): every key the Scanner writes is `skeyP` of some scanned
file's path exactly as constructed from the given root (no absolutization),
and every key the Executor writes is `skeyP` of its candidate's path; these
coincide with the spec's lower-cased absolute key only when the path is
already absolute. -/
theorem c10_key_normalization (st0 : StateMap) (fs : Fs) (cwd : String) :
    (∀ k, getS (scan_videos st0 fs).st k ≠ getS st0 k →
       ∃ g ∈ fs, k = skeyP (pth g)) ∧
    (∀ (keep : Bool) (fst : Fs) (st : StateMap) (c : MFile × Nat × Nat)
       (enc : EncRun),
       ∃ v, (convert_video keep fst st c enc).st
         = setS st (skeyP (pth c.1)) v) ∧
    (∀ p : MPath, isAbsolute p = true → specKeyAbs cwd p = skeyP p) := by
  refine ⟨?_, ?_, ?_⟩
  · intro k hk
    by_contra hno
    push_neg at hno
    exact hk (foldl_st_domain fs ⟨st0, [], 0, 0, [], []⟩
      (fun g hg => fun he => hno g hg he.symm))
  · intro keep fst st c enc
    exact convert_video_st_shape keep fst st c enc
  · intro p hp
    unfold specKeyAbs specAbs
    rw [if_pos hp]

/-- C10 witness: the scan-written key for the relative-root fixture is the
file's own lowered path; a conversion writes its candidate's lowered path;
an absolute path's spec key coincides with the code's key. -/
theorem c10_key_normalization_witness :
    (∃ g ∈ [exRel], (⟨"videos", "movie7.mp4"⟩ : MPath) = skeyP (pth g)) ∧
    (∃ v, (convert_video false [ex3gpBig] [] (ex3gpBig, 640, 480)
        (encOk (pth ex3gpBig))).st = setS [] (skeyP (pth ex3gpBig)) v) ∧
    specKeyAbs "/home/user" (pth exMp4Big) = skeyP (pth exMp4Big) :=
  ⟨(c10_key_normalization [] [exRel] "/home/user").1
      ⟨"videos", "movie7.mp4"⟩ (by decide),
   (c10_key_normalization [] [] "/home/user").2.1 false [ex3gpBig] []
      (ex3gpBig, 640, 480) (encOk (pth ex3gpBig)),
   (c10_key_normalization [] [] "/home/user").2.2 (pth exMp4Big) (by decide)⟩

theorem scanStep_conv_pres {a : ScanAcc} (g : MFile) {k : MPath}
    (h : getS a.st k = some St.converted) :
    getS (scanStep a g).st k = some St.converted := by
  rcases scanStep_st_shape a g with hs | ⟨hs, hc, -⟩
  · rw [hs]; exact h
  · rw [hs]
    rcases eq_or_ne (skey g) k with he | hne
    · subst he; exact absurd h hc
    · rw [getS_setS_ne _ _ _ _ hne]; exact h

theorem scanStep_queue_of_skip {a : ScanAcc} {g : MFile}
    (hc : getS a.st (skey g) = some St.converted ∨ ClassSkip g) :
    (scanStep a g).queue = a.queue := by
  rcases scanStep_queue_shape a g with hs | ⟨w, h, hres, -, hnc, hv, htmp, hcond⟩
  · exact hs
  · exfalso
    rcases hc with hc | hc
    · exact hnc hc
    · rcases hc with hc | hc | hc | ⟨w2, h2, hres2, hw, hh, hno⟩
      · rw [hv] at hc; cases hc
      · rw [htmp] at hc; cases hc
      · rw [hc] at hres; cases hres
      · rw [hres] at hres2
        injection hres2 with hres2
        injection hres2 with hw2 hh2
        subst hw2; subst hh2
        rcases hcond with hcond | hcond
        · rcases hcond with hcond | hcond <;> omega
        · exact hno hcond

theorem foldl_queue_nil :
    ∀ (fs : Fs) (a : ScanAcc),
      (∀ g ∈ fs, getS a.st (skey g) = some St.converted ∨ ClassSkip g) →
      a.queue = [] → (fs.foldl scanStep a).queue = [] := by
  intro fs
  induction fs with
  | nil => exact fun a _ h => h
  | cons g t ih =>
    intro a hok hq
    rw [List.foldl_cons]
    apply ih
    · intro x hx
      rcases hok x (List.mem_cons_of_mem g hx) with hc | hc
      · exact Or.inl (scanStep_conv_pres g hc)
      · exact Or.inr hc
    · rw [scanStep_queue_of_skip (hok g (List.mem_cons_self g t))]
      exact hq

theorem scanStep_classify (a : ScanAcc) (g : MFile) :
    getS (scanStep a g).st (skey g) = some St.converted ∨
    (getS (scanStep a g).st (skey g) = some St.skipped ∧ ClassSkip g) ∨
    (isVideoExt (lowerStr g.ext) = false ∨ isTempName (fname g) = true ∨
     g.res = none) ∨
    (∃ w h, g.res = some (w, h) ∧ (g, w, h) ∈ (scanStep a g).queue) := by
  unfold scanStep
  split
  · next hv => exact Or.inr (Or.inr (Or.inl (Or.inl hv)))
  · next hv =>
    split
    · next htmp => exact Or.inr (Or.inr (Or.inl (Or.inr (Or.inl htmp))))
    · next htmp =>
      split
      · next hc => exact Or.inl hc
      · next hc =>
        split
        · next hres => exact Or.inr (Or.inr (Or.inl (Or.inr (Or.inr hres))))
        · next w h hres =>
          split
          · next h3 =>
            refine Or.inr (Or.inl ⟨getS_setS_self _ _ _, ?_⟩)
            exact Or.inr (Or.inr (Or.inr ⟨w, h, hres, h3.2.1.le, h3.2.2.le,
              fun hx => hx.2.2 h3.1⟩))
          · next h3 =>
            split
            · next hbig =>
              exact Or.inr (Or.inr (Or.inr ⟨w, h, hres,
                List.mem_append.mpr (Or.inr (List.mem_singleton.mpr rfl))⟩))
            · next hbig =>
              split
              · next hfmt =>
                exact Or.inr (Or.inr (Or.inr ⟨w, h, hres,
                  List.mem_append.mpr (Or.inr (List.mem_singleton.mpr rfl))⟩))
              · next hfmt =>
                refine Or.inr (Or.inl ⟨getS_setS_self _ _ _, ?_⟩)
                refine Or.inr (Or.inr (Or.inr ⟨w, h, hres, ?_, ?_, ?_⟩))
                · by_contra hw
                  exact hbig (Or.inl (Nat.lt_of_not_le hw))
                · by_contra hh
                  exact hbig (Or.inr (Nat.lt_of_not_le hh))
                · exact hfmt

theorem scanStep_queue_mono {a : ScanAcc} (g : MFile) {x : MFile × Nat × Nat}
    (h : x ∈ a.queue) : x ∈ (scanStep a g).queue := by
  rcases scanStep_queue_shape a g with hs | ⟨w, h2, -, hs, -, -, -, -⟩
  · rw [hs]; exact h
  · rw [hs]; exact List.mem_append.mpr (Or.inl h)

theorem foldl_queue_mono :
    ∀ (fs : Fs) (a : ScanAcc) (x : MFile × Nat × Nat),
      x ∈ a.queue → x ∈ (fs.foldl scanStep a).queue := by
  intro fs
  induction fs with
  | nil => exact fun a x h => h
  | cons g t ih =>
    intro a x h
    rw [List.foldl_cons]
    exact ih _ x (scanStep_queue_mono g h)

theorem scanStep_skipped_pres {a : ScanAcc} (g : MFile) {k : MPath}
    (h : getS a.st k = some St.converted ∨ getS a.st k = some St.skipped) :
    getS (scanStep a g).st k = some St.converted ∨
    getS (scanStep a g).st k = some St.skipped := by
  rcases scanStep_st_shape a g with hs | ⟨hs, -, -⟩
  · rw [hs]; exact h
  · rw [hs]
    rcases eq_or_ne (skey g) k with he | hne
    · subst he; exact Or.inr (getS_setS_self _ _ _)
    · rw [getS_setS_ne _ _ _ _ hne]; exact h

theorem foldl_classify :
    ∀ (fs : Fs) (a : ScanAcc), ∀ g ∈ fs,
      getS (fs.foldl scanStep a).st (skey g) = some St.converted ∨
      ((getS (fs.foldl scanStep a).st (skey g) = some St.converted ∨
        getS (fs.foldl scanStep a).st (skey g) = some St.skipped) ∧
       ClassSkip g) ∨
      (isVideoExt (lowerStr g.ext) = false ∨ isTempName (fname g) = true ∨
       g.res = none) ∨
      (∃ w h, g.res = some (w, h) ∧
        (g, w, h) ∈ (fs.foldl scanStep a).queue) := by
  intro fs
  induction fs with
  | nil => intro a g hg; cases hg
  | cons x t ih =>
    intro a g hg
    rw [List.foldl_cons]
    rcases List.mem_cons.mp hg with hgx | hgt
    · subst hgx
      rcases scanStep_classify a g with hc | ⟨hc, hcs⟩ | hc | ⟨w, h, hres, hc⟩
      · exact Or.inl (foldl_st_conv t _ hc)
      · exact Or.inr (Or.inl ⟨foldl_st_convskip t _ (Or.inr hc), hcs⟩)
      · exact Or.inr (Or.inr (Or.inl hc))
      · exact Or.inr (Or.inr (Or.inr ⟨w, h, hres, foldl_queue_mono t _ _ hc⟩))
    · exact ih (scanStep a x) g hgt

theorem foldl_queue_src :
    ∀ (fs : Fs) (a : ScanAcc), ∀ d ∈ (fs.foldl scanStep a).queue,
      d ∈ a.queue ∨
      (d.1 ∈ fs ∧ isVideoExt (lowerStr d.1.ext) = true ∧
       isTempName (fname d.1) = false) := by
  intro fs
  induction fs with
  | nil => exact fun a d hd => Or.inl hd
  | cons g t ih =>
    intro a d hd
    rw [List.foldl_cons] at hd
    rcases ih (scanStep a g) d hd with hmem | ⟨hm1, hm2, hm3⟩
    · rcases scanStep_queue_shape a g with hs | ⟨w, h, -, hs, -, hv, htmp, -⟩
      · rw [hs] at hmem; exact Or.inl hmem
      · rw [hs] at hmem
        rcases List.mem_append.mp hmem with hmem | hmem
        · exact Or.inl hmem
        · have hd2 : d = (g, w, h) := List.mem_singleton.mp hmem
          refine Or.inr ⟨?_, ?_, ?_⟩
          · rw [hd2]; exact List.mem_cons_self g t
          · rw [hd2]; exact hv
          · rw [hd2]; exact htmp
    · exact Or.inr ⟨List.mem_cons_of_mem g hm1, hm2, hm3⟩

theorem foldl_queue_nodup :
    ∀ (fs : Fs) (a : ScanAcc),
      (fs.map pth).Nodup →
      (a.queue.map (fun d => pth d.1)).Nodup →
      (∀ d ∈ a.queue, pth d.1 ∉ fs.map pth) →
      ((fs.foldl scanStep a).queue.map (fun d => pth d.1)).Nodup := by
  intro fs
  induction fs with
  | nil => exact fun a _ hq _ => hq
  | cons g t ih =>
    intro a hnd hq hdis
    have hhead : pth g ∉ t.map pth := (List.nodup_cons.mp hnd).1
    have htail : (t.map pth).Nodup := (List.nodup_cons.mp hnd).2
    rw [List.foldl_cons]
    apply ih _ htail
    · rcases scanStep_queue_shape a g with hs | ⟨w, h, -, hs, -, -, -, -⟩
      · rw [hs]; exact hq
      · rw [hs, List.map_append]
        refine List.Nodup.append hq (List.nodup_singleton _) ?_
        intro p hp hp2
        have hp2' : p = pth g := List.mem_singleton.mp hp2
        obtain ⟨d, hd, hdp⟩ := List.mem_map.mp hp
        have := hdis d hd
        rw [hdp, hp2'] at this
        exact this (List.mem_cons_self (pth g) (t.map pth))
    · intro d hd
      rcases scanStep_queue_shape a g with hs | ⟨w, h, -, hs, -, -, -, -⟩
      · rw [hs] at hd
        intro hmem
        exact hdis d hd (List.mem_cons_of_mem _ hmem)
      · rw [hs] at hd
        rcases List.mem_append.mp hd with hd | hd
        · intro hmem
          exact hdis d hd (List.mem_cons_of_mem _ hmem)
        · have hd2 : d = (g, w, h) := List.mem_singleton.mp hd
          rw [hd2]
          exact hhead

theorem mem_eraseFile {fs : Fs} {p : MPath} {g : MFile}
    (h : g ∈ eraseFile fs p) : g ∈ fs ∧ pth g ≠ p := by
  induction fs with
  | nil => simp [eraseFile] at h
  | cons x t ih =>
    by_cases hx : pth x = p
    · rw [eraseFile, if_pos hx] at h
      exact ⟨List.mem_cons_of_mem x (ih h).1, (ih h).2⟩
    · rw [eraseFile, if_neg hx] at h
      rcases List.mem_cons.mp h with h1 | h1
      · subst h1
        exact ⟨List.mem_cons_self g t, hx⟩
      · exact ⟨List.mem_cons_of_mem x (ih h1).1, (ih h1).2⟩

theorem classSkip_of_target {cv : MFile} (he : cv.ext = ".3gp")
    (hr : cv.res = some (TARGET_WIDTH, TARGET_HEIGHT)) : ClassSkip cv := by
  refine Or.inr (Or.inr (Or.inr
    ⟨TARGET_WIDTH, TARGET_HEIGHT, hr, Nat.le_refl _, Nat.le_refl _, ?_⟩))
  rintro ⟨-, -, hne⟩
  rw [he] at hne
  exact hne (by decide)

theorem stOK_setS_conv {st : StateMap} {g : MFile} (k : MPath)
    (h : StOK st g) : StOK (setS st k St.converted) g := by
  rcases h with h | h
  · left
    rcases eq_or_ne k (skey g) with he | hne
    · subst he; exact getS_setS_self _ _ _
    · rw [getS_setS_ne _ _ _ _ hne]; exact h
  · exact Or.inr h

theorem entryOK_setS_conv {st : StateMap} {g : MFile} (k : MPath)
    (h : EntryOK st g) : EntryOK (setS st k St.converted) g := by
  rcases eq_or_ne k (skey g) with he | hne
  · subst he
    exact Or.inl (getS_setS_self _ _ _)
  · unfold EntryOK at h ⊢
    rw [getS_setS_ne _ _ _ _ hne]
    exact h

theorem convert_step_inv {keep : Bool} {fs : Fs} {st : StateMap}
    {f : MFile} {w h : Nat} {enc : EncRun}
    (henc : EncGood enc)
    (htm : isTempName (fname f) = false)
    (hsrc : ∃ g0, lookupFile fs (pth f) = some g0 ∧ 0 < g0.size) :
    ∃ cv : MFile, pth cv = finPath f ∧ cv.ext = ".3gp" ∧
      cv.res = some (TARGET_WIDTH, TARGET_HEIGHT) ∧ 1024 ≤ cv.size ∧
      (convert_video keep fs st (f, w, h) enc).st
        = setS st (skey f) St.converted ∧
      (∀ g' ∈ (convert_video keep fs st (f, w, h) enc).fs,
         g' = cv ∨ g' ∈ fs) ∧
      (lookupFile (convert_video keep fs st (f, w, h) enc).fs (finPath f)
        = if keep = false ∧ pth f = finPath f then none else some cv) ∧
      (∀ p, p ≠ tmpPath f → p ≠ finPath f → p ≠ pth f →
        lookupFile (convert_video keep fs st (f, w, h) enc).fs p
          = lookupFile fs p) := by
  obtain ⟨ht, he, t, hp, hs1024, hres⟩ := henc
  obtain ⟨g0, hl0, hg0⟩ := hsrc
  have htmp_ne : pth f ≠ tmpPath f := ne_tmpPath_of_notTemp htm f
  have horig : lookupFile (putFile fs (tmpFile f t)) (pth f) = some g0 := by
    rw [lookupFile_putFile, if_neg, hl0]
    intro hc
    exact htmp_ne ((show pth (tmpFile f t) = tmpPath f from rfl) ▸ hc).symm
  have htf : 0 < (tmpFile f t).size := by
    simp only [tmpFile]
    omega
  have ho : convert_video keep fs st (f, w, h) enc
      = convertFinish keep (putFile fs (tmpFile f t)) st f (tmpFile f t) :=
    convert_video_validated ht he hp hs1024
  rw [@convertFinish_success keep (putFile fs (tmpFile f t)) st f
    (tmpFile f t) g0 htm horig (Or.inr hg0) htf] at ho
  have hst_eq : (convert_video keep fs st (f, w, h) enc).st
      = setS st (skey f) St.converted := by
    rw [ho]
  have hfs_eq : (convert_video keep fs st (f, w, h) enc).fs
      = (if keep = true
         then putFile (eraseFile
              (if (lookupFile (putFile fs (tmpFile f t)) (finPath f)).isSome = true
               then eraseFile (putFile fs (tmpFile f t)) (finPath f)
               else putFile fs (tmpFile f t)) (tmpPath f))
              (convFile f ⟨(tmpFile f t).res, (tmpFile f t).size⟩)
         else eraseFile (putFile (eraseFile
              (if (lookupFile (putFile fs (tmpFile f t)) (finPath f)).isSome = true
               then eraseFile (putFile fs (tmpFile f t)) (finPath f)
               else putFile fs (tmpFile f t)) (tmpPath f))
              (convFile f ⟨(tmpFile f t).res, (tmpFile f t).size⟩)) (pth f)) := by
    rw [ho]
  have hfin3 : lookupFile (putFile (eraseFile
      (if (lookupFile (putFile fs (tmpFile f t)) (finPath f)).isSome = true
       then eraseFile (putFile fs (tmpFile f t)) (finPath f)
       else putFile fs (tmpFile f t)) (tmpPath f))
      (convFile f ⟨(tmpFile f t).res, (tmpFile f t).size⟩)) (finPath f)
      = some (convFile f ⟨(tmpFile f t).res, (tmpFile f t).size⟩) := by
    rw [lookupFile_putFile,
        if_pos (show pth (convFile f ⟨(tmpFile f t).res, (tmpFile f t).size⟩)
          = finPath f from rfl)]
  refine ⟨convFile f ⟨(tmpFile f t).res, (tmpFile f t).size⟩,
    rfl, rfl, hres, hs1024, hst_eq, ?_, ?_, ?_⟩
  · intro g' hg'
    rw [hfs_eq] at hg'
    have hg3 : g' ∈ putFile (eraseFile
        (if (lookupFile (putFile fs (tmpFile f t)) (finPath f)).isSome = true
         then eraseFile (putFile fs (tmpFile f t)) (finPath f)
         else putFile fs (tmpFile f t)) (tmpPath f))
        (convFile f ⟨(tmpFile f t).res, (tmpFile f t).size⟩) := by
      by_cases hk : keep = true
      · rw [if_pos hk] at hg'
        exact hg'
      · rw [if_neg hk] at hg'
        exact (mem_eraseFile hg').1
    rcases mem_putFile hg3 with hcv | hg4
    · exact Or.inl hcv
    · have h5 := mem_eraseFile hg4
      have h6 : g' ∈ putFile fs (tmpFile f t) := by
        by_cases hpre : (lookupFile (putFile fs (tmpFile f t))
            (finPath f)).isSome = true
        · rw [if_pos hpre] at h5
          exact (mem_eraseFile h5.1).1
        · rw [if_neg hpre] at h5
          exact h5.1
      rcases mem_putFile h6 with htmp2 | hfs2
      · exfalso
        apply h5.2
        rw [htmp2]
        rfl
      · exact Or.inr hfs2
  · rw [hfs_eq]
    by_cases hk : keep = true
    · have hnc : ¬ (keep = false ∧ pth f = finPath f) := by
        rintro ⟨hkf, -⟩
        rw [hk] at hkf
        cases hkf
      rw [if_pos hk, hfin3, if_neg hnc]
    · have hk' : keep = false := by
        cases hb : keep
        · rfl
        · exact absurd hb hk
      rw [if_neg hk, lookupFile_eraseFile]
      by_cases hpf : pth f = finPath f
      · rw [if_pos hpf.symm, if_pos ⟨hk', hpf⟩]
      · rw [if_neg (fun hc => hpf hc.symm), hfin3,
            if_neg (fun hc => hpf hc.2)]
  · intro p hp1 hp2 hp3
    rw [hfs_eq]
    have e1 : lookupFile (putFile fs (tmpFile f t)) p = lookupFile fs p := by
      rw [lookupFile_putFile,
          if_neg (fun hc => hp1 (((show pth (tmpFile f t) = tmpPath f
            from rfl) ▸ hc)).symm)]
    have e2 : lookupFile
        (if (lookupFile (putFile fs (tmpFile f t)) (finPath f)).isSome = true
         then eraseFile (putFile fs (tmpFile f t)) (finPath f)
         else putFile fs (tmpFile f t)) p = lookupFile fs p := by
      by_cases hpre : (lookupFile (putFile fs (tmpFile f t))
          (finPath f)).isSome = true
      · rw [if_pos hpre, lookupFile_eraseFile, if_neg hp2, e1]
      · rw [if_neg hpre, e1]
    have e3 : lookupFile (putFile (eraseFile
        (if (lookupFile (putFile fs (tmpFile f t)) (finPath f)).isSome = true
         then eraseFile (putFile fs (tmpFile f t)) (finPath f)
         else putFile fs (tmpFile f t)) (tmpPath f))
        (convFile f ⟨(tmpFile f t).res, (tmpFile f t).size⟩)) p
        = lookupFile fs p := by
      rw [lookupFile_putFile,
          if_neg (fun hc => hp2 (((show pth (convFile f ⟨(tmpFile f t).res,
            (tmpFile f t).size⟩) = finPath f from rfl) ▸ hc)).symm),
          lookupFile_eraseFile, if_neg hp1, e2]
    by_cases hk : keep = true
    · rw [if_pos hk]
      exact e3
    · rw [if_neg hk, lookupFile_eraseFile, if_neg hp3, e3]

theorem runConversions_inv {keep : Bool} {enc : MPath → EncRun}
    (hencs : ∀ p, EncGood (enc p)) :
    ∀ (pending : List (MFile × Nat × Nat)) (fs : Fs) (st : StateMap),
      (∀ g ∈ fs, 0 < g.size) →
      (∀ g ∈ fs, StOK st g ∨ ∃ d ∈ pending, pth d.1 = pth g) →
      (∀ g ∈ fs, isVideoExt (lowerStr g.ext) = true →
        isTempName (fname g) = false →
        (EntryOK st g ∨ ∃ d ∈ pending, pth d.1 = pth g)) →
      (∀ d ∈ pending, (lookupFile fs (pth d.1)).isSome = true) →
      (∀ d ∈ pending, isTempName (fname d.1) = false) →
      ((pending.map (fun d => pth d.1)).Nodup) →
      (∀ g ∈ (runConversions keep enc fs st pending).1,
         StOK (runConversions keep enc fs st pending).2 g) ∧
      (∀ g ∈ (runConversions keep enc fs st pending).1,
         isVideoExt (lowerStr g.ext) = true →
         isTempName (fname g) = false →
         EntryOK (runConversions keep enc fs st pending).2 g) := by
  intro pending
  induction pending with
  | nil =>
    intro fs st hsz hstok hentry hlook htemp hnd
    constructor
    · intro g hg
      rcases hstok g hg with hok | ⟨d, hd, -⟩
      · exact hok
      · cases hd
    · intro g hg hv htm
      rcases hentry g hg hv htm with hok | ⟨d, hd, -⟩
      · exact hok
      · cases hd
  | cons c rest ih =>
    intro fs st hsz hstok hentry hlook htemp hnd
    obtain ⟨cf, cw, ch⟩ := c
    have hc_lookup := hlook (cf, cw, ch) (List.mem_cons_self _ _)
    obtain ⟨g0, hg0some⟩ := Option.isSome_iff_exists.mp hc_lookup
    have hg0mem := mem_of_lookupFile hg0some
    have hctm : isTempName (fname cf) = false :=
      htemp _ (List.mem_cons_self _ _)
    obtain ⟨cv, hcvp, hcve, hcvr, hcvs, hst', hmem', hfin', hoth'⟩ :=
      @convert_step_inv keep fs st cf cw ch (enc (pth cf))
        (hencs (pth cf)) hctm ⟨g0, hg0some, hsz g0 hg0mem.1⟩
    have hrun : runConversions keep enc fs st ((cf, cw, ch) :: rest)
        = runConversions keep enc
            (convert_video keep fs st (cf, cw, ch) (enc (pth cf))).fs
            (convert_video keep fs st (cf, cw, ch) (enc (pth cf))).st
            rest := rfl
    rw [hrun]
    have hmapnd : (pth cf ∉ rest.map (fun d => pth d.1)) ∧
        (rest.map (fun d => pth d.1)).Nodup := by
      rw [List.map_cons] at hnd
      exact List.nodup_cons.mp hnd
    apply ih
    · -- sizes
      intro g' hg'
      rcases hmem' g' hg' with hcv | hfs2
      · rw [hcv]
        exact Nat.lt_of_lt_of_le (by omega) hcvs
      · exact hsz g' hfs2
    · -- StOK or still pending
      intro g' hg'
      rcases hmem' g' hg' with hcv | hfs2
      · left
        rw [hcv]
        exact Or.inr (classSkip_of_target hcve hcvr)
      · rcases hstok g' hfs2 with hok | ⟨d, hd, hdp⟩
        · left
          rw [hst']
          exact stOK_setS_conv _ hok
        · rcases List.mem_cons.mp hd with hdc | hdr
          · left
            left
            rw [hst']
            have hkeys : skey g' = skey cf := by
              rw [skey, skey, ← hdp, hdc]
            rw [hkeys]
            exact getS_setS_self _ _ _
          · exact Or.inr ⟨d, hdr, hdp⟩
    · -- EntryOK or still pending
      intro g' hg' hv htm
      rcases hmem' g' hg' with hcv | hfs2
      · left
        rw [hcv]
        exact Or.inr (Or.inr ⟨hcve, hcvr⟩)
      · rcases hentry g' hfs2 hv htm with hok | ⟨d, hd, hdp⟩
        · left
          rw [hst']
          exact entryOK_setS_conv _ hok
        · rcases List.mem_cons.mp hd with hdc | hdr
          · left
            left
            rw [hst']
            have hkeys : skey g' = skey cf := by
              rw [skey, skey, ← hdp, hdc]
            rw [hkeys]
            exact getS_setS_self _ _ _
          · exact Or.inr ⟨d, hdr, hdp⟩
    · -- sources of the remaining candidates still present
      intro d hd
      have hne_c : pth d.1 ≠ pth cf := by
        intro hc
        apply hmapnd.1
        rw [← hc]
        exact List.mem_map.mpr ⟨d, hd, rfl⟩
      by_cases h1 : pth d.1 = finPath cf
      · rw [h1, hfin']
        have hcond : ¬ (keep = false ∧ pth cf = finPath cf) := by
          rintro ⟨-, hpf⟩
          exact hne_c (h1.trans hpf.symm)
        rw [if_neg hcond]
        rfl
      · by_cases h2 : pth d.1 = tmpPath cf
        · exfalso
          have hname : fname d.1 = ("temp_" ++ cf.stem) ++ ".3gp" :=
            congrArg MPath.name h2
          have hd' := htemp d (List.mem_cons_of_mem _ hd)
          rw [hname, isTempName_append] at hd'
          cases hd'
        · rw [hoth' (pth d.1) h2 h1 hne_c]
          exact hlook d (List.mem_cons_of_mem _ hd)
    · -- remaining candidates have non-temp names
      intro d hd
      exact htemp d (List.mem_cons_of_mem _ hd)
    · -- remaining candidate paths are distinct
      exact hmapnd.2

/-- C2: idempotence. When every file under the root probes successfully
(with positive size and distinct paths) and every encoder invocation of the
first run succeeds with a target-resolution output, then after the first
run's scan-and-convert pass the second scan produces an empty worklist —
zero additional conversions — and every file it re-encounters (video
extension, non-temp name) either has a `converted`/`skipped` state entry or
is a fresh `.3gp` output already at the target resolution. -/
theorem c2_idempotent (fs0 : Fs) (st0 : StateMap) (keep : Bool)
    (enc : MPath → EncRun)
    (hnd : (fs0.map pth).Nodup)
    (hres : ∀ f ∈ fs0, f.res.isSome = true)
    (hsz : ∀ f ∈ fs0, 0 < f.size)
    (hencs : ∀ p, EncGood (enc p)) :
    ∀ fs1 st2,
      (fs1, st2) = runConversions keep enc fs0 (scan_videos st0 fs0).st
        (scan_videos st0 fs0).queue →
      (scan_videos st2 fs1).queue = [] ∧
      (∀ g ∈ fs1, isVideoExt (lowerStr g.ext) = true →
        isTempName (fname g) = false →
        (getS st2 (skey g) = some St.converted ∨
         getS st2 (skey g) = some St.skipped ∨
         (g.ext = ".3gp" ∧ g.res = some (TARGET_WIDTH, TARGET_HEIGHT)))) := by
  intro fs1 st2 hrun
  have hfs1 : fs1 = (runConversions keep enc fs0 (scan_videos st0 fs0).st
      (scan_videos st0 fs0).queue).1 := congrArg Prod.fst hrun
  have hst2 : st2 = (runConversions keep enc fs0 (scan_videos st0 fs0).st
      (scan_videos st0 fs0).queue).2 := congrArg Prod.snd hrun
  subst hfs1
  subst hst2
  have init_stok : ∀ g ∈ fs0, StOK (scan_videos st0 fs0).st g ∨
      ∃ d ∈ (scan_videos st0 fs0).queue, pth d.1 = pth g := by
    intro g hg
    rcases foldl_classify fs0 ⟨st0, [], 0, 0, [], []⟩ g hg with
      h1 | ⟨h2, hcs⟩ | h3 | ⟨w, h, -, hq⟩
    · exact Or.inl (Or.inl h1)
    · exact Or.inl (Or.inr hcs)
    · rcases h3 with h3 | h3 | h3
      · exact Or.inl (Or.inr (Or.inl h3))
      · exact Or.inl (Or.inr (Or.inr (Or.inl h3)))
      · exact Or.inl (Or.inr (Or.inr (Or.inr (Or.inl h3))))
    · exact Or.inr ⟨(g, w, h), hq, rfl⟩
  have init_entry : ∀ g ∈ fs0, isVideoExt (lowerStr g.ext) = true →
      isTempName (fname g) = false →
      (EntryOK (scan_videos st0 fs0).st g ∨
       ∃ d ∈ (scan_videos st0 fs0).queue, pth d.1 = pth g) := by
    intro g hg hv htm
    rcases foldl_classify fs0 ⟨st0, [], 0, 0, [], []⟩ g hg with
      h1 | ⟨h2, -⟩ | h3 | ⟨w, h, -, hq⟩
    · exact Or.inl (Or.inl h1)
    · rcases h2 with h2 | h2
      · exact Or.inl (Or.inl h2)
      · exact Or.inl (Or.inr (Or.inl h2))
    · rcases h3 with h3 | h3 | h3
      · rw [hv] at h3; cases h3
      · rw [htm] at h3; cases h3
      · have := hres g hg
        rw [h3] at this
        cases this
    · exact Or.inr ⟨(g, w, h), hq, rfl⟩
  have init_look : ∀ d ∈ (scan_videos st0 fs0).queue,
      (lookupFile fs0 (pth d.1)).isSome = true := by
    intro d hd
    rcases foldl_queue_src fs0 ⟨st0, [], 0, 0, [], []⟩ d hd with
      h | ⟨hmem, -, -⟩
    · cases h
    · exact lookupFile_isSome_of_mem hmem
  have init_temp : ∀ d ∈ (scan_videos st0 fs0).queue,
      isTempName (fname d.1) = false := by
    intro d hd
    rcases foldl_queue_src fs0 ⟨st0, [], 0, 0, [], []⟩ d hd with
      h | ⟨-, -, ht⟩
    · cases h
    · exact ht
  have init_nd : (((scan_videos st0 fs0).queue).map
      (fun d => pth d.1)).Nodup :=
    foldl_queue_nodup fs0 ⟨st0, [], 0, 0, [], []⟩ hnd List.nodup_nil
      (fun d hd => absurd hd (List.not_mem_nil d))
  obtain ⟨hfin_stok, hfin_entry⟩ :=
    runConversions_inv hencs (scan_videos st0 fs0).queue fs0
      (scan_videos st0 fs0).st hsz init_stok init_entry init_look
      init_temp init_nd
  constructor
  · exact foldl_queue_nil _ ⟨_, [], 0, 0, [], []⟩
      (fun g hg => hfin_stok g hg) rfl
  · intro g hg hv htm
    exact hfin_entry g hg hv htm

/-- C2 witness: the spec's concrete four-file scenario (640x480 `.mp4`,
176x144 `.3gp`, 176x144 `.mp4`, 120x90 `.avi`, empty prior state, default
options) rescans to an empty worklist after the first run. -/
theorem c2_idempotent_witness :
    (scan_videos
      (runConversions false encOk [exMp4Big, ex3gpExact, exMp4Exact, exAviSmall]
        (scan_videos [] [exMp4Big, ex3gpExact, exMp4Exact, exAviSmall]).st
        (scan_videos [] [exMp4Big, ex3gpExact, exMp4Exact, exAviSmall]).queue).2
      (runConversions false encOk [exMp4Big, ex3gpExact, exMp4Exact, exAviSmall]
        (scan_videos [] [exMp4Big, ex3gpExact, exMp4Exact, exAviSmall]).st
        (scan_videos [] [exMp4Big, ex3gpExact, exMp4Exact, exAviSmall]).queue).1).queue
      = [] :=
  ((c2_idempotent [exMp4Big, ex3gpExact, exMp4Exact, exAviSmall] [] false encOk
    (by decide) (by decide) (by decide)
    (fun p => ⟨rfl, rfl, ⟨⟨some (176, 144), 2048⟩, rfl, by decide, rfl⟩⟩))
    _ _ rfl).1

end FVC
